import Mathlib

/-!
# movieutils: `pt.ParseHDCTitle`

A shallow embedding of `src/pt/parse.go` and a verification of its title parser.

Conventions of the embedding.

* A Go `string` is modelled by the list of its runes (`GoString`), i.e. the development covers
  strings that are valid UTF-8. Where the source works on bytes (`len`, indexing, `strconv.Atoi`)
  the runes are UTF-8 encoded first (`utf8Bytes`).
* Go `int` values are unbounded integers (`Int`); every index that occurs is bounded by the
  number of tokens, so no arithmetic of the source can overflow.
* `DigitalFormat` and `DigitalResolution` are `uint8` in the source; they are natural numbers
  here and the `iota` constants are the numbers `0, 1, 2, ...`.
* A runtime failure of the Go program (a slice bound out of range) is the value `none`.
* Two things the source leaves to the Go runtime are parameters of the embedding: the case table
  of `unicode.ToLower` for runes outside ASCII, and the order in which a `range` statement
  visits the entries of a map (a fresh, arbitrary order each time the statement is executed).
-/

namespace pt

/-- A Go string, as the list of its runes. -/
abbrev GoString := List Char

abbrev DigitalFormat := Nat
abbrev DigitalResolution := Nat

def Blueray : DigitalFormat := 0
def HDTV : DigitalFormat := 1
def WebDL : DigitalFormat := 2
def UHDTV : DigitalFormat := 3
def UnknownDigitalFormat : DigitalFormat := 4

def FHD : DigitalResolution := 0
def HD : DigitalResolution := 1
def UHD4K : DigitalResolution := 2
def UnknownResolution : DigitalResolution := 3

/-- The entries of the map literal `DigitalFormatMap`, in the order of the source text. -/
def DigitalFormatMap : List (DigitalFormat × List GoString) :=
  [ (Blueray, ["bluray".toList, "blu-ray".toList, "blueray".toList, "bd".toList]),
    (HDTV, ["hdtv".toList]),
    (WebDL, ["webdl".toList, "web-dl".toList]),
    (UHDTV, ["uhdtv".toList]) ]

/-- The entries of the map literal `DigitalResolutionMap`, in the order of the source text. -/
def DigitalResolutionMap : List (DigitalResolution × List GoString) :=
  [ (FHD, ["1080".toList, "1080p".toList, "1080i".toList]),
    (HD, ["720".toList, "720p".toList]),
    (UHD4K, ["4k".toList]) ]

/-- One way a `range` statement may visit the entries of `DigitalFormatMap`. -/
abbrev FormatOrder := { l : List (DigitalFormat × List GoString) // l.Perm DigitalFormatMap }

/-- One way a `range` statement may visit the entries of `DigitalResolutionMap`. -/
abbrev ResolutionOrder :=
  { l : List (DigitalResolution × List GoString) // l.Perm DigitalResolutionMap }

/-- The visiting order that follows the source text of `DigitalFormatMap`. -/
def sourceFormatOrder : FormatOrder := ⟨DigitalFormatMap, List.Perm.refl _⟩

/-- The visiting order that follows the source text of `DigitalResolutionMap`. -/
def sourceResolutionOrder : ResolutionOrder := ⟨DigitalResolutionMap, List.Perm.refl _⟩

structure MovieInfo where
  Title : GoString
  Year : Int
  Group : GoString
  Source : DigitalFormat
  Resolution : DigitalResolution
  deriving DecidableEq, Repr

/-- The composite literal `MovieInfo{}`: every field has the zero value of its type. -/
def MovieInfo.zero : MovieInfo :=
  { Title := [], Year := 0, Group := [], Source := 0, Resolution := 0 }

/-- The constant `math.MaxInt32`. -/
def MaxInt32 : Int := 2147483647

/-! ## Library functions used by the source -/

/-- UTF-8 encoding of one rune, as a list of byte values. -/
def utf8Encode (c : Char) : List Nat :=
  let v := c.toNat
  if v < 0x80 then [v]
  else if v < 0x800 then [0xC0 + v / 64, 0x80 + v % 64]
  else if v < 0x10000 then [0xE0 + v / 4096, 0x80 + v / 64 % 64, 0x80 + v % 64]
  else [0xF0 + v / 262144, 0x80 + v / 4096 % 64, 0x80 + v / 64 % 64, 0x80 + v % 64]

/-- The bytes of a Go string. -/
def utf8Bytes : GoString → List Nat
  | [] => []
  | c :: cs => utf8Encode c ++ utf8Bytes cs

/-- Go `len(s)` for a string: the number of bytes. -/
def len (s : GoString) : Nat := (utf8Bytes s).length

/-- The digit loop of `strconv.Atoi`: `n = n*10 + int(ch - '0')`, failing on a byte that is
not a decimal digit. -/
def atoiDigits : Nat → List Nat → Option Nat
  | n, [] => some n
  | n, ch :: rest =>
    if 48 ≤ ch ∧ ch ≤ 57 then atoiDigits (n * 10 + (ch - 48)) rest else none

/-- Go `strconv.Atoi` (base 10, 64-bit `int`) on the bytes of a string: an optional sign
followed by one or more decimal digits; a syntax error or a value out of range is `none`. -/
def Atoi (s : List Nat) : Option Int :=
  match s with
  | [] => none
  | 45 :: rest =>
    if rest = [] then none
    else match atoiDigits 0 rest with
      | some n => if n ≤ 9223372036854775808 then some (-(n : Int)) else none
      | none => none
  | 43 :: rest =>
    if rest = [] then none
    else match atoiDigits 0 rest with
      | some n => if n ≤ 9223372036854775807 then some (n : Int) else none
      | none => none
  | ch :: rest =>
    match atoiDigits 0 (ch :: rest) with
    | some n => if n ≤ 9223372036854775807 then some (n : Int) else none
    | none => none

/-- The state machine of Go `strings.FieldsFunc`: `cur` is the field being read, most recent
rune first (`none` when the scan is between fields, `start < 0` in the library). -/
def fieldsFuncAux (f : Char → Bool) : Option (List Char) → List Char → List GoString
  | none, [] => []
  | some w, [] => [w.reverse]
  | none, r :: rs => if f r then fieldsFuncAux f none rs else fieldsFuncAux f (some [r]) rs
  | some w, r :: rs =>
    if f r then w.reverse :: fieldsFuncAux f none rs else fieldsFuncAux f (some (r :: w)) rs

/-- Go `strings.FieldsFunc`. -/
def FieldsFunc (s : GoString) (f : Char → Bool) : List GoString :=
  fieldsFuncAux f none s

/-- Go `strings.Join`. -/
def Join : List GoString → GoString → GoString
  | [], _ => []
  | [a], _ => a
  | a :: b :: rest, sep => a ++ sep ++ Join (b :: rest) sep

/-- Go `strings.ToLower` on one rune: `'A'..'Z'` are shifted to `'a'..'z'`, the other ASCII
runes are unchanged, and a rune outside ASCII is looked up in the case table `unicodeLower` of
the Go runtime. -/
def toLowerRune (unicodeLower : Char → Char) (r : Char) : Char :=
  if r.toNat < 128 then
    (if 65 ≤ r.toNat ∧ r.toNat ≤ 90 then Char.ofNat (r.toNat + 32) else r)
  else unicodeLower r

/-- Go `strings.ToLower`. -/
def ToLower (unicodeLower : Char → Char) (s : GoString) : GoString :=
  s.map (toLowerRune unicodeLower)

/-- Go `strings.LastIndex(s, sep)` for a separator `sep` of one ASCII rune `c`: the position of
the last occurrence of `c`, or `-1`. Positions are counted in runes; `lastIndexFrom i s`
scans `s`, whose first rune has position `i`, carrying the last hit in `acc`. -/
def lastIndexFrom (c : Char) : Int → Int → List Char → Int
  | _, acc, [] => acc
  | i, acc, r :: rs => lastIndexFrom c (i + 1) (if r = c then i else acc) rs

def LastIndex (s : GoString) (c : Char) : Int := lastIndexFrom c 0 (-1) s

/-- The slice expression `s[low:]` on a string, `low` counted in runes. -/
def sliceFrom (s : GoString) (low : Int) : GoString := s.drop low.toNat

/-! ## The functions of `parse.go` -/

def contains (array : List GoString) (s : GoString) : Bool :=
  match array with
  | [] => false
  | e :: rest => if e = s then true else contains rest s

def minPositive (ints : List Int) : Int :=
  ints.foldl (fun m i => if i ≥ 0 ∧ i < m then i else m) MaxInt32

def split (title : GoString) : List GoString :=
  FieldsFunc title (fun r => r == '.' || r == ' ')

def tryParseYear (yyyy : GoString) : Option Int :=
  if len yyyy ≠ 4 then none
  else if (utf8Bytes yyyy).head? ≠ some 49 ∧ (utf8Bytes yyyy).head? ≠ some 50 then none
  else Atoi (utf8Bytes yyyy)

/-- The loop of `findYear`, entered at index `i` with the fields still to visit. -/
def findYearFrom : Int → List GoString → Int × Int
  | _, [] => (-1, -1)
  | i, f :: rest =>
    match tryParseYear f with
    | some year => (year, i)
    | none => findYearFrom (i + 1) rest

def findYear (fields : List GoString) : Int × Int := findYearFrom 0 fields

/-- The inner `range` loop of `findSource` and `findResolution` over the map entries in the
order `entries`: the key of the first entry visited whose names contain `s`. -/
def rangeFind (entries : List (Nat × List GoString)) (s : GoString) : Option Nat :=
  match entries with
  | [] => none
  | (format, names) :: rest => if contains names s then some format else rangeFind rest s

/-- The loop of `findSource`, entered at index `i`; `order k` is the order in which the
entries of `DigitalFormatMap` are visited for the field at index `k`. -/
def findSourceFrom (unicodeLower : Char → Char) (order : Nat → FormatOrder) :
    Nat → List GoString → DigitalFormat × Int
  | _, [] => (UnknownDigitalFormat, -1)
  | i, field :: rest =>
    match rangeFind (order i).val (ToLower unicodeLower field) with
    | some format => (format, (i : Int))
    | none => findSourceFrom unicodeLower order (i + 1) rest

def findSource (unicodeLower : Char → Char) (order : Nat → FormatOrder)
    (fields : List GoString) : DigitalFormat × Int :=
  findSourceFrom unicodeLower order 0 fields

/-- The loop of `findResolution`, entered at index `i`. -/
def findResolutionFrom (unicodeLower : Char → Char) (order : Nat → ResolutionOrder) :
    Nat → List GoString → DigitalResolution × Int
  | _, [] => (UnknownResolution, -1)
  | i, field :: rest =>
    match rangeFind (order i).val (ToLower unicodeLower field) with
    | some format => (format, (i : Int))
    | none => findResolutionFrom unicodeLower order (i + 1) rest

def findResolution (unicodeLower : Char → Char) (order : Nat → ResolutionOrder)
    (fields : List GoString) : DigitalResolution × Int :=
  findResolutionFrom unicodeLower order 0 fields

def findGroup (fields : List GoString) : GoString :=
  if fields.length ≤ 0 then []
  else
    let last := fields.getLastD []
    let i := LastIndex last '-'
    if i ≥ 0 then
      let group := sliceFrom last (i + 1)
      let ii := LastIndex group '@'
      if ii ≥ 0 then sliceFrom group (ii + 1) else group
    else []

/-- The slice expression `fields[:high]` on the result of `split`, whose capacity equals its
length: it fails unless `0 ≤ high ≤ len(fields)`. -/
def sliceTo (fields : List GoString) (high : Int) : Option (List GoString) :=
  if 0 ≤ high ∧ high ≤ (fields.length : Int) then some (fields.take high.toNat) else none

def ParseHDCTitle (unicodeLower : Char → Char) (formatOrder : Nat → FormatOrder)
    (resolutionOrder : Nat → ResolutionOrder) (title : GoString) : Option MovieInfo :=
  let m := MovieInfo.zero
  if title = [] then some m
  else
    let fields := split title
    let (year, yearIndex) := findYear fields
    let (source, sourceIndex) := findSource unicodeLower formatOrder fields
    let (resolution, resIndex) := findResolution unicodeLower resolutionOrder fields
    let group := findGroup fields
    let minIndex := minPositive [yearIndex, sourceIndex, resIndex]
    match sliceTo fields minIndex with
    | none => none
    | some titleFields =>
      let movieTitle := Join titleFields " ".toList
      some { Title := movieTitle, Year := year, Group := group, Source := source,
             Resolution := resolution }

/-! ## What the specification says a tokenization is -/

/-- The two delimiters of the specification: the literal period and the literal space. -/
def isDelimiter (c : Char) : Prop := c = '.' ∨ c = ' '

/-- The tokenization of the specification: `Tokenizes s ts` holds when `ts` lists, from left to
right, the maximal non-empty delimiter-free substrings of `s`. Reading `s` from the left, either
`s` is exhausted and no token remains, or `s` starts with a delimiter, which belongs to no
token, or `s` starts with a non-empty delimiter-free substring `t` that cannot be extended to
the right (the text ends, or a delimiter follows) and `t` is the next token. -/
inductive Tokenizes : GoString → List GoString → Prop
  | done : Tokenizes [] []
  | skip (c : Char) (s : GoString) (ts : List GoString) :
      isDelimiter c → Tokenizes s ts → Tokenizes (c :: s) ts
  | token (t s : GoString) (ts : List GoString) :
      t ≠ [] → (∀ c ∈ t, ¬ isDelimiter c) →
      (s = [] ∨ ∃ c s', s = c :: s' ∧ isDelimiter c) →
      Tokenizes s ts → Tokenizes (t ++ s) (t :: ts)

/-- The decimal value of a string of digits. -/
def decimalValue (s : GoString) : Int :=
  s.foldl (fun n c => 10 * n + ((c.toNat : Int) - 48)) 0

/-! ## Auxiliary definitions of the proofs -/

/-- No alias belongs to two entries of the map `M`. -/
def DisjointAliases (M : List (Nat × List GoString)) : Prop :=
  ∀ e1 ∈ M, ∀ e2 ∈ M, ∀ x ∈ e1.2, x ∈ e2.2 → e1.1 = e2.1

instance (M : List (Nat × List GoString)) : Decidable (DisjointAliases M) := by
  unfold DisjointAliases
  infer_instance

/-- The common shape of the loops of `findSource` and `findResolution`: a scan over the map
`M` that answers `unknown` when no field matches. -/
def scanFrom (unicodeLower : Char → Char) (M : List (Nat × List GoString)) (unknown : Nat)
    (order : Nat → { l : List (Nat × List GoString) // l.Perm M }) :
    Nat → List GoString → Nat × Int
  | _, [] => (unknown, -1)
  | i, field :: rest =>
    match rangeFind (order i).val (ToLower unicodeLower field) with
    | some format => (format, (i : Int))
    | none => scanFrom unicodeLower M unknown order (i + 1) rest

/-- A title with `n` tokens `a` followed by the token `2015`. -/
def manyTokens (n : Nat) : GoString :=
  (List.replicate n "a.".toList).flatten ++ "2015".toList

/-- The upper-case form of an ASCII letter `'a'..'z'`; every other rune is unchanged. -/
def upperAscii (c : Char) : Char :=
  if 97 ≤ c.toNat ∧ c.toNat ≤ 122 then Char.ofNat (c.toNat - 32) else c

/-- The string `t` is obtained from `alias` by changing the case of some of its letters: rune
by rune, `t` has the rune of `alias` or its upper-case form. -/
def caseVariant : GoString → GoString → Bool
  | [], [] => true
  | a :: as, c :: cs => (c == a || c == upperAscii a) && caseVariant as cs
  | _, _ => false

/-- The input with every `'.'` replaced by `' '`. -/
def dotsToSpaces (s : GoString) : GoString := s.map (fun c => if c = '.' then ' ' else c)

/-- The input with every `' '` replaced by `'.'`. -/
def spacesToDots (s : GoString) : GoString := s.map (fun c => if c = ' ' then '.' else c)

/-! ## The tokenizer -/

section SplitLemmas

variable (f : Char → Bool)

theorem fieldsFuncAux_some_of_boundary (w : List Char) (s : GoString)
    (hs : s = [] ∨ ∃ c s', s = c :: s' ∧ f c = true) :
    fieldsFuncAux f (some w) s = w.reverse :: fieldsFuncAux f none s := by
  rcases hs with rfl | ⟨c, s', rfl, hc⟩
  · simp [fieldsFuncAux]
  · simp [fieldsFuncAux, hc]

theorem fieldsFuncAux_some_append (t : List Char) (ht : ∀ c ∈ t, f c = false) :
    ∀ (w : List Char) (s : GoString),
      fieldsFuncAux f (some w) (t ++ s) = fieldsFuncAux f (some (t.reverse ++ w)) s := by
  induction t with
  | nil => intro w s; simp
  | cons a t ih =>
    intro w s
    have ha : f a = false := ht a (by simp)
    have ht' : ∀ c ∈ t, f c = false := fun c hc => ht c (by simp [hc])
    simp [fieldsFuncAux, ha, ih ht']

theorem fieldsFuncAux_append_delim (a b : GoString) (d : Char) (hd : f d = true) :
    ∀ cur, fieldsFuncAux f cur (a ++ d :: b)
      = fieldsFuncAux f cur a ++ fieldsFuncAux f none b := by
  induction a with
  | nil =>
    intro cur
    cases cur <;> simp [fieldsFuncAux, hd]
  | cons r a ih =>
    intro cur
    cases cur <;> by_cases hr : f r = true <;> simp [fieldsFuncAux, hr, ih]

theorem fieldsFuncAux_mem (s : GoString) :
    (∀ t ∈ fieldsFuncAux f none s, t ≠ [] ∧ ∀ c ∈ t, f c = false) ∧
    (∀ w : List Char, w ≠ [] → (∀ c ∈ w, f c = false) →
      ∀ t ∈ fieldsFuncAux f (some w) s, t ≠ [] ∧ ∀ c ∈ t, f c = false) := by
  induction s with
  | nil =>
    refine ⟨by simp [fieldsFuncAux], ?_⟩
    intro w hw hwf t ht
    simp [fieldsFuncAux] at ht
    subst ht
    exact ⟨by simpa using hw, by simpa using hwf⟩
  | cons r s ih =>
    obtain ⟨ih1, ih2⟩ := ih
    constructor
    · intro t ht
      by_cases hr : f r = true
      · simp [fieldsFuncAux, hr] at ht
        exact ih1 t ht
      · simp [fieldsFuncAux, hr] at ht
        exact ih2 [r] (by simp) (by simpa using hr) t ht
    · intro w hw hwf t ht
      by_cases hr : f r = true
      · simp [fieldsFuncAux, hr] at ht
        rcases ht with rfl | ht
        · exact ⟨by simpa using hw, by simpa using hwf⟩
        · exact ih1 t ht
      · simp [fieldsFuncAux, hr] at ht
        refine ih2 (r :: w) (by simp) ?_ t ht
        intro c hc
        simp at hc
        rcases hc with rfl | hc
        · simpa using hr
        · exact hwf c hc

theorem fieldsFuncAux_flatten (s : GoString) :
    (fieldsFuncAux f none s).flatten = s.filter (fun c => !f c) ∧
    (∀ w : List Char, (∀ c ∈ w, f c = false) →
      (fieldsFuncAux f (some w) s).flatten = w.reverse ++ s.filter (fun c => !f c)) := by
  induction s with
  | nil => simp [fieldsFuncAux]
  | cons r s ih =>
    obtain ⟨ih1, ih2⟩ := ih
    constructor
    · by_cases hr : f r = true
      · simp [fieldsFuncAux, hr, ih1]
      · simp [fieldsFuncAux, hr, ih2 [r] (by simpa using hr)]
    · intro w hwf
      by_cases hr : f r = true
      · simp [fieldsFuncAux, hr, ih1]
      · have : ∀ c ∈ r :: w, f c = false := by
          intro c hc
          simp at hc
          rcases hc with rfl | hc
          · simpa using hr
          · exact hwf c hc
        simp [fieldsFuncAux, hr, ih2 (r :: w) this]

end SplitLemmas

theorem split_delim_iff (c : Char) :
    (fun r : Char => r == '.' || r == ' ') c = true ↔ isDelimiter c := by
  simp [isDelimiter]

theorem split_nondelim_iff (c : Char) :
    (fun r : Char => r == '.' || r == ' ') c = false ↔ ¬ isDelimiter c := by
  simp [isDelimiter]

theorem split_nil : split [] = [] := by
  simp [split, FieldsFunc, fieldsFuncAux]

theorem split_cons_delim (c : Char) (s : GoString) (hc : isDelimiter c) :
    split (c :: s) = split s := by
  have h := (split_delim_iff c).2 hc
  simp only [split, FieldsFunc, fieldsFuncAux]
  rw [if_pos h]

theorem split_append_delim (a b : GoString) (d : Char) (hd : isDelimiter d) :
    split (a ++ d :: b) = split a ++ split b := by
  simp only [split, FieldsFunc]
  exact fieldsFuncAux_append_delim _ a b d ((split_delim_iff d).2 hd) none

theorem split_token_append (t s : GoString) (ht : t ≠ []) (hf : ∀ c ∈ t, ¬ isDelimiter c)
    (hs : s = [] ∨ ∃ c s', s = c :: s' ∧ isDelimiter c) :
    split (t ++ s) = t :: split s := by
  obtain ⟨a, t', rfl⟩ := List.exists_cons_of_ne_nil ht
  have ha : (fun r : Char => r == '.' || r == ' ') a = false :=
    (split_nondelim_iff a).2 (hf a (by simp))
  have ht' : ∀ c ∈ t', (fun r : Char => r == '.' || r == ' ') c = false :=
    fun c hc => (split_nondelim_iff c).2 (hf c (by simp [hc]))
  have hs' : s = [] ∨
      ∃ c s', s = c :: s' ∧ (fun r : Char => r == '.' || r == ' ') c = true := by
    rcases hs with h | ⟨c, s', h, hc⟩
    · exact Or.inl h
    · exact Or.inr ⟨c, s', h, (split_delim_iff c).2 hc⟩
  rw [show (a :: t') ++ s = a :: (t' ++ s) from rfl]
  simp only [split, FieldsFunc, fieldsFuncAux]
  rw [if_neg (by simpa using ha), fieldsFuncAux_some_append _ t' ht',
    fieldsFuncAux_some_of_boundary _ _ _ hs']
  simp

theorem split_token (t : GoString) (ht : t ≠ []) (hf : ∀ c ∈ t, ¬ isDelimiter c) :
    split t = [t] := by
  have h := split_token_append t [] ht hf (Or.inl rfl)
  simpa [split_nil] using h

theorem split_of_tokenizes {s : GoString} {ts : List GoString} (h : Tokenizes s ts) :
    ts = split s := by
  induction h with
  | done => exact split_nil.symm
  | skip c s ts hc _ ih => rw [split_cons_delim c s hc]; exact ih
  | token t s ts ht hf hs _ ih => rw [split_token_append t s ht hf hs, ih]

theorem tokenizes_aux (s : GoString) :
    Tokenizes s (fieldsFuncAux (fun r : Char => r == '.' || r == ' ') none s) ∧
    (∀ w : List Char, w ≠ [] → (∀ c ∈ w, ¬ isDelimiter c) →
      Tokenizes (w.reverse ++ s)
        (fieldsFuncAux (fun r : Char => r == '.' || r == ' ') (some w) s)) := by
  induction s with
  | nil =>
    refine ⟨by simpa [fieldsFuncAux] using Tokenizes.done, ?_⟩
    intro w hw hwf
    simp only [fieldsFuncAux]
    exact Tokenizes.token w.reverse [] [] (by simpa using hw) (by simpa using hwf)
      (Or.inl rfl) Tokenizes.done
  | cons r s ih =>
    obtain ⟨ih1, ih2⟩ := ih
    by_cases hr : isDelimiter r
    · have hr' := (split_delim_iff r).2 hr
      constructor
      · simp only [fieldsFuncAux]
        rw [if_pos hr']
        exact Tokenizes.skip r s _ hr ih1
      · intro w hw hwf
        simp only [fieldsFuncAux]
        rw [if_pos hr']
        exact Tokenizes.token w.reverse (r :: s) _ (by simpa using hw) (by simpa using hwf)
          (Or.inr ⟨r, s, rfl, hr⟩) (Tokenizes.skip r s _ hr ih1)
    · have hr' : ¬ (fun r : Char => r == '.' || r == ' ') r = true := by
        rw [split_delim_iff]; exact hr
      constructor
      · simp only [fieldsFuncAux]
        rw [if_neg hr']
        have := ih2 [r] (by simp) (by simpa using hr)
        simpa using this
      · intro w hw hwf
        simp only [fieldsFuncAux]
        rw [if_neg hr']
        have := ih2 (r :: w) (by simp) (by
          intro c hc
          simp at hc
          rcases hc with rfl | hc
          · exact hr
          · exact hwf c hc)
        simpa using this

theorem tokenizes_split (s : GoString) : Tokenizes s (split s) :=
  (tokenizes_aux s).1

theorem split_mem (s : GoString) :
    ∀ t ∈ split s, t ≠ [] ∧ ∀ c ∈ t, ¬ isDelimiter c := by
  intro t ht
  obtain ⟨h1, h2⟩ := (fieldsFuncAux_mem _ s).1 t ht
  exact ⟨h1, fun c hc => (split_nondelim_iff c).1 (h2 c hc)⟩

theorem split_flatten (s : GoString) :
    (split s).flatten = s.filter (fun c => !(c == '.' || c == ' ')) :=
  (fieldsFuncAux_flatten _ s).1

/-- Claim C7. `split s` is exactly the list, from left to right, of the maximal non-empty
substrings of `s` that contain neither `'.'` nor `' '`: it is the one and only tokenization of
`s`; no token is empty or contains a delimiter; a delimiter anywhere in the text (leading,
trailing or repeated) only separates and contributes no token; and the tokens concatenated are
`s` with every `'.'` and `' '` removed. -/
theorem split_spec (s : GoString) :
    (∀ ts, Tokenizes s ts ↔ ts = split s) ∧
    (∀ t ∈ split s, t ≠ [] ∧ '.' ∉ t ∧ ' ' ∉ t) ∧
    (∀ a b d, (d = '.' ∨ d = ' ') → s = a ++ d :: b → split s = split a ++ split b) ∧
    (split s).flatten = s.filter (fun c => c ≠ '.' ∧ c ≠ ' ') := by
  refine ⟨?_, ?_, ?_, ?_⟩
  · intro ts
    constructor
    · exact split_of_tokenizes
    · rintro rfl
      exact tokenizes_split s
  · intro t ht
    obtain ⟨h1, h2⟩ := split_mem s t ht
    exact ⟨h1, fun h => h2 _ h (Or.inl rfl), fun h => h2 _ h (Or.inr rfl)⟩
  · rintro a b d hd rfl
    exact split_append_delim a b d hd
  · rw [split_flatten]
    congr 1
    funext c
    by_cases h1 : c = '.' <;> by_cases h2 : c = ' ' <;> simp [h1, h2]

theorem split_spec_witness :
    split " a..b c. ".toList = split " a.".toList ++ split "b c. ".toList ∧
    split " a..b c. ".toList = ["a".toList, "b".toList, "c".toList] :=
  ⟨(split_spec " a..b c. ".toList).2.2.1 " a.".toList "b c. ".toList '.' (Or.inl rfl) (by decide),
   by decide⟩

/-! ## The year scanner -/

theorem utf8Encode_ascii (c : Char) (h : c.toNat < 128) : utf8Encode c = [c.toNat] := by
  simp [utf8Encode, h]

theorem utf8Encode_non_ascii (c : Char) (h : ¬ c.toNat < 128) :
    2 ≤ (utf8Encode c).length ∧ ∀ b ∈ utf8Encode c, 128 ≤ b := by
  unfold utf8Encode
  simp only [h, if_false]
  split_ifs <;> simp <;> omega

theorem utf8Bytes_ascii (s : GoString) (h : ∀ c ∈ s, c.toNat < 128) :
    utf8Bytes s = s.map Char.toNat := by
  induction s with
  | nil => rfl
  | cons c s ih =>
    have hc : c.toNat < 128 := h c (by simp)
    have hs : ∀ c ∈ s, c.toNat < 128 := fun c hc => h c (by simp [hc])
    simp [utf8Bytes, utf8Encode_ascii c hc, ih hs]

theorem ascii_of_utf8Bytes (s : GoString) (h : ∀ b ∈ utf8Bytes s, b < 128) :
    ∀ c ∈ s, c.toNat < 128 := by
  induction s with
  | nil => simp
  | cons c s ih =>
    intro x hx
    simp only [utf8Bytes, List.mem_append] at h
    simp only [List.mem_cons] at hx
    rcases hx with rfl | hx
    · by_contra hc
      obtain ⟨hl, hb⟩ := utf8Encode_non_ascii x hc
      obtain ⟨b, hbm⟩ : ∃ b, b ∈ utf8Encode x := by
        cases hne : utf8Encode x with
        | nil => simp [hne] at hl
        | cons b _ => exact ⟨b, by simp⟩
      have := h b (Or.inl hbm)
      have := hb b hbm
      omega
    · exact ih (fun b hb => h b (Or.inr hb)) x hx

theorem Atoi_year (b1 b2 b3 b4 : Nat) (hb1 : b1 = 49 ∨ b1 = 50) :
    Atoi [b1, b2, b3, b4] =
      if (48 ≤ b2 ∧ b2 ≤ 57) ∧ (48 ≤ b3 ∧ b3 ≤ 57) ∧ (48 ≤ b4 ∧ b4 ≤ 57) then
        some (1000 * ((b1 : Int) - 48) + 100 * ((b2 : Int) - 48) + 10 * ((b3 : Int) - 48)
          + ((b4 : Int) - 48))
      else none := by
  rcases hb1 with rfl | rfl
  · simp only [Atoi, atoiDigits]
    by_cases h2 : 48 ≤ b2 ∧ b2 ≤ 57 <;> by_cases h3 : 48 ≤ b3 ∧ b3 ≤ 57 <;>
      by_cases h4 : 48 ≤ b4 ∧ b4 ≤ 57 <;> simp [h2, h3, h4]
    constructor <;> omega
  · simp only [Atoi, atoiDigits]
    by_cases h2 : 48 ≤ b2 ∧ b2 ≤ 57 <;> by_cases h3 : 48 ≤ b3 ∧ b3 ≤ 57 <;>
      by_cases h4 : 48 ≤ b4 ∧ b4 ≤ 57 <;> simp [h2, h3, h4]
    constructor <;> omega

/-- What `tryParseYear` does on the bytes of its argument. -/
theorem tryParseYear_bytes (t : GoString) (y : Int) :
    tryParseYear t = some y ↔
      ∃ b1 b2 b3 b4 : Nat, utf8Bytes t = [b1, b2, b3, b4] ∧ (b1 = 49 ∨ b1 = 50) ∧
        (48 ≤ b2 ∧ b2 ≤ 57) ∧ (48 ≤ b3 ∧ b3 ≤ 57) ∧ (48 ≤ b4 ∧ b4 ≤ 57) ∧
        y = 1000 * ((b1 : Int) - 48) + 100 * ((b2 : Int) - 48) + 10 * ((b3 : Int) - 48)
          + ((b4 : Int) - 48) := by
  unfold tryParseYear len
  constructor
  · intro h
    split_ifs at h with h1 h2
    have hlen : (utf8Bytes t).length = 4 := by simpa using h1
    match hb : utf8Bytes t, hlen with
    | [b1, b2, b3, b4], _ =>
      rw [hb] at h h2
      have hb1 : b1 = 49 ∨ b1 = 50 := by
        simp at h2
        omega
      rw [Atoi_year b1 b2 b3 b4 hb1] at h
      split_ifs at h with hd
      obtain ⟨h2', h3', h4'⟩ := hd
      exact ⟨b1, b2, b3, b4, rfl, hb1, h2', h3', h4', (Option.some.inj h).symm⟩
  · rintro ⟨b1, b2, b3, b4, hb, hb1, h2, h3, h4, rfl⟩
    rw [hb, if_neg (by simp), if_neg (by rcases hb1 with rfl | rfl <;> simp),
      Atoi_year b1 b2 b3 b4 hb1, if_pos ⟨h2, h3, h4⟩]
theorem char_digit_iff (c : Char) :
    ('0' ≤ c ∧ c ≤ '9') ↔ (48 ≤ c.toNat ∧ c.toNat ≤ 57) := by
  simp only [Char.le_def, Char.toNat]
  constructor
  · rintro ⟨h1, h2⟩
    exact ⟨h1, h2⟩
  · rintro ⟨h1, h2⟩
    exact ⟨h1, h2⟩

theorem char_eq_iff_toNat (c d : Char) : c = d ↔ c.toNat = d.toNat := by
  constructor
  · rintro rfl; rfl
  · intro h
    apply Char.ext
    apply UInt32.ext
    exact h

/-- A successful `tryParseYear`, read on the characters of the token. -/
theorem tryParseYear_some (t : GoString) (y : Int) (h : tryParseYear t = some y) :
    (t.length = 4 ∧ (∀ c ∈ t, '0' ≤ c ∧ c ≤ '9') ∧
      (t.head? = some '1' ∨ t.head? = some '2')) ∧
    y = decimalValue t ∧ 1000 ≤ y ∧ y ≤ 2999 := by
  obtain ⟨b1, b2, b3, b4, hb, hb1, h2, h3, h4, rfl⟩ := (tryParseYear_bytes t y).1 h
  have hasc : ∀ c ∈ t, c.toNat < 128 := by
    apply ascii_of_utf8Bytes
    rw [hb]
    intro b hbm
    simp at hbm
    omega
  rw [utf8Bytes_ascii t hasc] at hb
  match t, hb with
  | [c1, c2, c3, c4], hb =>
    simp only [List.map, List.cons.injEq, and_true] at hb
    obtain ⟨e1, e2, e3, e4⟩ := hb
    refine ⟨⟨rfl, ?_, ?_⟩, ?_, ?_, ?_⟩
    · intro c hc
      rw [char_digit_iff]
      simp at hc
      rcases hc with rfl | rfl | rfl | rfl <;> omega
    · simp only [List.head?, Option.some.injEq]
      rcases hb1 with h | h
      · left; rw [char_eq_iff_toNat]; rw [e1, h]; rfl
      · right; rw [char_eq_iff_toNat]; rw [e1, h]; rfl
    · simp only [decimalValue, List.foldl, e1, e2, e3, e4]
      ring
    · omega
    · omega

/-- Claim C5. `tryParseYear t` succeeds exactly when `t` has four characters, each a decimal
digit `'0'..'9'`, the first of them `'1'` or `'2'`; the integer returned is then the decimal
value of `t` and lies between 1000 and 2999. -/
theorem tryParseYear_spec (t : GoString) :
    ((tryParseYear t).isSome ↔
      (t.length = 4 ∧ (∀ c ∈ t, '0' ≤ c ∧ c ≤ '9') ∧
        (t.head? = some '1' ∨ t.head? = some '2'))) ∧
    (∀ y, tryParseYear t = some y → y = decimalValue t ∧ 1000 ≤ y ∧ y ≤ 2999) := by
  constructor
  · constructor
    · intro h
      obtain ⟨y, hy⟩ := Option.isSome_iff_exists.1 h
      exact (tryParseYear_some t y hy).1
    · rintro ⟨hlen, hdig, hhead⟩
      match t, hlen with
      | [c1, c2, c3, c4], _ =>
        have d2 := (char_digit_iff c2).1 (hdig c2 (by simp))
        have d3 := (char_digit_iff c3).1 (hdig c3 (by simp))
        have d4 := (char_digit_iff c4).1 (hdig c4 (by simp))
        have hasc : ∀ c ∈ [c1, c2, c3, c4], c.toNat < 128 := by
          intro c hc
          have := (char_digit_iff c).1 (hdig c hc)
          omega
        have hb1 : c1.toNat = 49 ∨ c1.toNat = 50 := by
          simp only [List.head?, Option.some.injEq] at hhead
          rcases hhead with h | h
          · left; rw [h]; rfl
          · right; rw [h]; rfl
        rw [Option.isSome_iff_exists]
        refine ⟨_, (tryParseYear_bytes _ _).2
          ⟨c1.toNat, c2.toNat, c3.toNat, c4.toNat, ?_, hb1, d2, d3, d4, rfl⟩⟩
        rw [utf8Bytes_ascii _ hasc]
        rfl
  · intro y hy
    exact (tryParseYear_some t y hy).2

theorem tryParseYear_spec_witness :
    tryParseYear "2015".toList = some 2015 ∧
      (2015 : Int) = decimalValue "2015".toList ∧ (1000 : Int) ≤ 2015 ∧
      (2015 : Int) ≤ 2999 :=
  ⟨by decide, (tryParseYear_spec "2015".toList).2 2015 (by decide)⟩

theorem findYearFrom_none (fields : List GoString) (h : ∀ t ∈ fields, tryParseYear t = none) :
    ∀ i, findYearFrom i fields = (-1, -1) := by
  induction fields with
  | nil => intro i; rfl
  | cons f rest ih =>
    intro i
    have hf : tryParseYear f = none := h f (by simp)
    simp only [findYearFrom, hf]
    exact ih (fun t ht => h t (by simp [ht])) _

theorem findYearFrom_first (pre : List GoString) (t : GoString) (post : List GoString) (y : Int)
    (hpre : ∀ p ∈ pre, tryParseYear p = none) (ht : tryParseYear t = some y) :
    ∀ i, findYearFrom i (pre ++ t :: post) = (y, i + pre.length) := by
  induction pre with
  | nil => intro i; simp [findYearFrom, ht]
  | cons f rest ih =>
    intro i
    have hf : tryParseYear f = none := hpre f (by simp)
    show findYearFrom i (f :: (rest ++ t :: post)) = _
    simp only [findYearFrom, hf]
    rw [ih (fun p hp => hpre p (by simp [hp]))]
    simp only [List.length_cons, Nat.cast_add, Nat.cast_one]
    congr 1
    ring

theorem findYearFrom_index (fields : List GoString) :
    ∀ i, (findYearFrom i fields).2 = -1 ∨
      (i ≤ (findYearFrom i fields).2 ∧ (findYearFrom i fields).2 < i + fields.length) := by
  induction fields with
  | nil => intro i; left; rfl
  | cons f rest ih =>
    intro i
    cases hf : tryParseYear f with
    | some y => right; simp [findYearFrom, hf]
    | none =>
      simp only [findYearFrom, hf]
      rcases ih (i + 1) with h | h
      · exact Or.inl h
      · right
        simp only [List.length_cons, Nat.cast_add, Nat.cast_one]
        omega

/-- Splitting a list at a valid index. -/
theorem list_split_at {α : Type} (l : List α) (k : Nat) (x : α) (h : l[k]? = some x) :
    l = l.take k ++ x :: l.drop (k + 1) ∧ (l.take k).length = k := by
  have hk : k < l.length := by
    by_contra hk
    rw [List.getElem?_eq_none (by omega)] at h
    exact Option.noConfusion h
  have hx : l[k] = x := by
    rw [List.getElem?_eq_getElem hk] at h
    exact Option.some.inj h
  constructor
  · rw [← hx]
    calc l = l.take k ++ l.drop k := (List.take_append_drop k l).symm
      _ = l.take k ++ l[k] :: l.drop (k + 1) := by rw [List.drop_eq_getElem_cons hk]
  · simp [List.length_take]; omega

theorem mem_take_getElem {α : Type} (l : List α) (k : Nat) (p : α) (hp : p ∈ l.take k) :
    ∃ j, j < k ∧ l[j]? = some p := by
  obtain ⟨j, hj, hjp⟩ := List.getElem_of_mem hp
  have hj' : j < k ∧ j < l.length := by
    simp [List.length_take] at hj
    exact hj
  refine ⟨j, hj'.1, ?_⟩
  rw [List.getElem_take] at hjp
  rw [List.getElem?_eq_getElem hj'.2, hjp]

theorem findYear_first (fields : List GoString) (k : Nat) (t : GoString) (y : Int)
    (hk : fields[k]? = some t) (ht : tryParseYear t = some y)
    (hmin : ∀ j u, j < k → fields[j]? = some u → tryParseYear u = none) :
    findYear fields = (y, (k : Int)) := by
  obtain ⟨hsplit, hlen⟩ := list_split_at fields k t hk
  have hpre : ∀ p ∈ fields.take k, tryParseYear p = none := by
    intro p hp
    obtain ⟨j, hj, hjp⟩ := mem_take_getElem fields k p hp
    exact hmin j p hj hjp
  unfold findYear
  rw [hsplit, findYearFrom_first _ t _ y hpre ht 0, hlen]
  simp

theorem findYear_none_iff (fields : List GoString) :
    findYear fields = (-1, -1) ↔ ∀ t ∈ fields, tryParseYear t = none := by
  constructor
  · intro h t ht
    by_contra hne
    -- some token qualifies: take the first one
    have hex : ∃ k : Nat, ∃ u, fields[k]? = some u ∧ tryParseYear u ≠ none := by
      obtain ⟨k, hk, hkt⟩ := List.getElem_of_mem ht
      exact ⟨k, t, by rw [List.getElem?_eq_getElem hk, hkt], hne⟩
    classical
    let k := Nat.find hex
    obtain ⟨u, hu, hune⟩ := Nat.find_spec hex
    obtain ⟨y, hy⟩ := Option.ne_none_iff_exists'.1 hune
    have hmin : ∀ j v, j < k → fields[j]? = some v → tryParseYear v = none := by
      intro j v hj hv
      by_contra hvn
      exact Nat.find_min hex hj ⟨v, hv, hvn⟩
    have := findYear_first fields k u y hu hy hmin
    rw [this] at h
    have h2 := congrArg Prod.snd h
    simp at h2
  · intro h
    exact findYearFrom_none fields h 0

/-! ## The source and resolution scanners -/

theorem contains_iff (array : List GoString) (s : GoString) :
    contains array s = true ↔ s ∈ array := by
  induction array with
  | nil => simp [contains]
  | cons e rest ih =>
    by_cases h : e = s
    · simp [contains, h]
    · have h' : ¬ s = e := fun h' => h h'.symm
      simp [contains, h, h', ih]

theorem rangeFind_eq_none_iff (entries : List (Nat × List GoString)) (s : GoString) :
    rangeFind entries s = none ↔ ∀ e ∈ entries, s ∉ e.2 := by
  induction entries with
  | nil => simp [rangeFind]
  | cons e rest ih =>
    obtain ⟨format, names⟩ := e
    by_cases h : contains names s = true
    · have := (contains_iff names s).1 h
      simp [rangeFind, h, this]
    · have h' : s ∉ names := fun hm => h ((contains_iff names s).2 hm)
      simp [rangeFind, h, h', ih]

theorem rangeFind_some (entries : List (Nat × List GoString)) (s : GoString) (v : Nat)
    (h : rangeFind entries s = some v) : ∃ names, (v, names) ∈ entries ∧ s ∈ names := by
  induction entries with
  | nil => simp [rangeFind] at h
  | cons e rest ih =>
    obtain ⟨format, names⟩ := e
    by_cases hc : contains names s = true
    · simp only [rangeFind, hc, if_true, Option.some.injEq] at h
      subst h
      exact ⟨names, by simp, (contains_iff names s).1 hc⟩
    · simp only [rangeFind, hc] at h
      obtain ⟨names', h1, h2⟩ := ih h
      exact ⟨names', by simp [h1], h2⟩

theorem DigitalFormatMap_disjoint : DisjointAliases DigitalFormatMap := by decide

theorem DigitalResolutionMap_disjoint : DisjointAliases DigitalResolutionMap := by decide

/-- With disjoint aliases the inner `range` loop finds the owner of an alias, whatever the
order of the visit. -/
theorem rangeFind_of_mem (M l : List (Nat × List GoString)) (hM : DisjointAliases M)
    (hl : l.Perm M) (s : GoString) (v : Nat) (names : List GoString)
    (hv : (v, names) ∈ M) (hs : s ∈ names) : rangeFind l s = some v := by
  cases h : rangeFind l s with
  | none =>
    have := (rangeFind_eq_none_iff l s).1 h (v, names) (hl.mem_iff.2 hv)
    exact absurd hs this
  | some v' =>
    obtain ⟨names', h1, h2⟩ := rangeFind_some l s v' h
    have := hM (v', names') (hl.mem_iff.1 h1) (v, names) hv s h2 hs
    simp only at this
    rw [this]

theorem rangeFind_none_of_perm (M l : List (Nat × List GoString)) (hl : l.Perm M)
    (s : GoString) (h : ∀ e ∈ M, s ∉ e.2) : rangeFind l s = none :=
  (rangeFind_eq_none_iff l s).2 (fun e he => h e (hl.mem_iff.1 he))

theorem rangeFind_perm (M l : List (Nat × List GoString)) (hM : DisjointAliases M)
    (hl : l.Perm M) (s : GoString) : rangeFind l s = rangeFind M s := by
  cases h : rangeFind M s with
  | none => exact rangeFind_none_of_perm M l hl s ((rangeFind_eq_none_iff M s).1 h)
  | some v =>
    obtain ⟨names, h1, h2⟩ := rangeFind_some M s v h
    exact rangeFind_of_mem M l hM hl s v names h1 h2

theorem findSourceFrom_eq_scanFrom (unicodeLower : Char → Char) (order : Nat → FormatOrder)
    (fields : List GoString) : ∀ i, findSourceFrom unicodeLower order i fields =
      scanFrom unicodeLower DigitalFormatMap UnknownDigitalFormat order i fields := by
  induction fields with
  | nil => intro i; rfl
  | cons f rest ih =>
    intro i
    simp only [findSourceFrom, scanFrom]
    cases rangeFind (order i).val (ToLower unicodeLower f) with
    | none => exact ih (i + 1)
    | some v => rfl

theorem findResolutionFrom_eq_scanFrom (unicodeLower : Char → Char)
    (order : Nat → ResolutionOrder) (fields : List GoString) :
    ∀ i, findResolutionFrom unicodeLower order i fields =
      scanFrom unicodeLower DigitalResolutionMap UnknownResolution order i fields := by
  induction fields with
  | nil => intro i; rfl
  | cons f rest ih =>
    intro i
    simp only [findResolutionFrom, scanFrom]
    cases rangeFind (order i).val (ToLower unicodeLower f) with
    | none => exact ih (i + 1)
    | some v => rfl

section Scan

variable (unicodeLower : Char → Char) (M : List (Nat × List GoString)) (unknown : Nat)
  (order : Nat → { l : List (Nat × List GoString) // l.Perm M })

theorem scanFrom_none (fields : List GoString)
    (h : ∀ t ∈ fields, ∀ e ∈ M, ToLower unicodeLower t ∉ e.2) :
    ∀ i, scanFrom unicodeLower M unknown order i fields = (unknown, -1) := by
  induction fields with
  | nil => intro i; rfl
  | cons f rest ih =>
    intro i
    have hf := rangeFind_none_of_perm M (order i).val (order i).property _ (h f (by simp))
    simp only [scanFrom, hf]
    exact ih (fun t ht => h t (by simp [ht])) _

theorem scanFrom_first (hM : DisjointAliases M) (pre : List GoString) (t : GoString)
    (post : List GoString) (v : Nat) (names : List GoString)
    (hpre : ∀ p ∈ pre, ∀ e ∈ M, ToLower unicodeLower p ∉ e.2)
    (hv : (v, names) ∈ M) (ht : ToLower unicodeLower t ∈ names) :
    ∀ i, scanFrom unicodeLower M unknown order i (pre ++ t :: post)
      = (v, ((i + pre.length : Nat) : Int)) := by
  induction pre with
  | nil =>
    intro i
    have := rangeFind_of_mem M (order i).val hM (order i).property _ v names hv ht
    simp [scanFrom, this]
  | cons f rest ih =>
    intro i
    have hf := rangeFind_none_of_perm M (order i).val (order i).property _ (hpre f (by simp))
    show scanFrom unicodeLower M unknown order i (f :: (rest ++ t :: post)) = _
    simp only [scanFrom, hf]
    rw [ih (fun p hp => hpre p (by simp [hp]))]
    simp only [List.length_cons]
    congr 2
    omega

theorem scanFrom_index (fields : List GoString) :
    ∀ i, (scanFrom unicodeLower M unknown order i fields).2 = -1 ∨
      ((i : Int) ≤ (scanFrom unicodeLower M unknown order i fields).2 ∧
        (scanFrom unicodeLower M unknown order i fields).2
          < ((i + fields.length : Nat) : Int)) := by
  induction fields with
  | nil => intro i; left; rfl
  | cons f rest ih =>
    intro i
    cases hf : rangeFind (order i).val (ToLower unicodeLower f) with
    | some y => right; simp [scanFrom, hf]
    | none =>
      simp only [scanFrom, hf]
      rcases ih (i + 1) with h | h
      · exact Or.inl h
      · right
        simp only [List.length_cons]
        push_cast at h ⊢
        omega

end Scan

/-- A list with an element that satisfies `P` has a first such element. -/
theorem exists_first {α : Type} (l : List α) (P : α → Prop) (h : ∃ t ∈ l, P t) :
    ∃ (k : Nat) (t : α),
      l[k]? = some t ∧ P t ∧ ∀ j u, j < k → l[j]? = some u → ¬ P u := by
  classical
  have hex : ∃ k : Nat, ∃ u, l[k]? = some u ∧ P u := by
    obtain ⟨t, ht, hP⟩ := h
    obtain ⟨k, hk, hkt⟩ := List.getElem_of_mem ht
    exact ⟨k, t, by rw [List.getElem?_eq_getElem hk, hkt], hP⟩
  obtain ⟨u, hu, hPu⟩ := Nat.find_spec hex
  refine ⟨Nat.find hex, u, hu, hPu, ?_⟩
  intro j v hj hv hPv
  exact Nat.find_min hex hj ⟨v, hv, hPv⟩

theorem getElem?_lt_length {α : Type} (l : List α) (k : Nat) (x : α) (h : l[k]? = some x) :
    k < l.length := by
  by_contra hk
  rw [List.getElem?_eq_none (by omega)] at h
  exact Option.noConfusion h

theorem scan_spec (unicodeLower : Char → Char) (M : List (Nat × List GoString)) (unknown : Nat)
    (hM : DisjointAliases M)
    (order : Nat → { l : List (Nat × List GoString) // l.Perm M }) (fields : List GoString) :
    (scanFrom unicodeLower M unknown order 0 fields = (unknown, -1) ↔
      ∀ t ∈ fields, ∀ e ∈ M, ToLower unicodeLower t ∉ e.2) ∧
    (∀ (k : Nat) (t : GoString), fields[k]? = some t →
      (∃ e ∈ M, ToLower unicodeLower t ∈ e.2) →
      (∀ j u, j < k → fields[j]? = some u → ∀ e ∈ M, ToLower unicodeLower u ∉ e.2) →
      ∃ v names, (v, names) ∈ M ∧ ToLower unicodeLower t ∈ names ∧
        (∀ v' names', (v', names') ∈ M → ToLower unicodeLower t ∈ names' → v' = v) ∧
        scanFrom unicodeLower M unknown order 0 fields = (v, (k : Int)) ∧
        0 ≤ (k : Int) ∧ (k : Int) < fields.length) := by
  have first : ∀ (k : Nat) (t : GoString), fields[k]? = some t →
      (∃ e ∈ M, ToLower unicodeLower t ∈ e.2) →
      (∀ j u, j < k → fields[j]? = some u → ∀ e ∈ M, ToLower unicodeLower u ∉ e.2) →
      ∃ v names, (v, names) ∈ M ∧ ToLower unicodeLower t ∈ names ∧
        (∀ v' names', (v', names') ∈ M → ToLower unicodeLower t ∈ names' → v' = v) ∧
        scanFrom unicodeLower M unknown order 0 fields = (v, (k : Int)) ∧
        0 ≤ (k : Int) ∧ (k : Int) < fields.length := by
    intro k t hk ⟨⟨v, names⟩, he, hte⟩ hmin
    obtain ⟨hsplit, hlen⟩ := list_split_at fields k t hk
    have hpre : ∀ p ∈ fields.take k, ∀ e ∈ M, ToLower unicodeLower p ∉ e.2 := by
      intro p hp
      obtain ⟨j, hj, hjp⟩ := mem_take_getElem fields k p hp
      exact hmin j p hj hjp
    refine ⟨v, names, he, hte, ?_, ?_, by omega, ?_⟩
    · intro v' names' he' hte'
      exact hM (v', names') he' (v, names) he _ hte' hte
    · have := scanFrom_first unicodeLower M unknown order hM _ t (fields.drop (k + 1)) v names
        hpre he hte 0
      rw [← hsplit, hlen] at this
      simpa using this
    · have := getElem?_lt_length fields k t hk
      exact_mod_cast this
  refine ⟨⟨?_, fun h => scanFrom_none unicodeLower M unknown order fields h 0⟩, first⟩
  intro h t ht e he hte
  obtain ⟨k, u, hu, hPu, hmin⟩ := exists_first fields
    (fun t => ∃ e ∈ M, ToLower unicodeLower t ∈ e.2) ⟨t, ht, e, he, hte⟩
  have hmin' : ∀ j u, j < k → fields[j]? = some u →
      ∀ e ∈ M, ToLower unicodeLower u ∉ e.2 := by
    intro j u hj hu e he hue
    exact hmin j u hj hu ⟨e, he, hue⟩
  obtain ⟨v, names, _, _, _, hres, _, _⟩ := first k u hu hPu hmin'
  rw [hres] at h
  have h2 := congrArg Prod.snd h
  simp at h2

/-- Claim C8. `findSource` returns `(UnknownDigitalFormat, -1)` exactly when no field lowercases
to an alias of `DigitalFormatMap`; and when the field at index `k` is the first one that
lowercases to an alias, it returns `(v, k)` where `v` is the one variant of `DigitalFormatMap`
whose alias list contains the lowercased field, and `0 ≤ k < len(fields)`. This holds for
every case table and every order in which the map entries are visited. -/
theorem findSource_spec (unicodeLower : Char → Char) (order : Nat → FormatOrder)
    (fields : List GoString) :
    (findSource unicodeLower order fields = (UnknownDigitalFormat, -1) ↔
      ∀ t ∈ fields, ∀ e ∈ DigitalFormatMap, ToLower unicodeLower t ∉ e.2) ∧
    (∀ (k : Nat) (t : GoString), fields[k]? = some t →
      (∃ e ∈ DigitalFormatMap, ToLower unicodeLower t ∈ e.2) →
      (∀ j u, j < k → fields[j]? = some u →
        ∀ e ∈ DigitalFormatMap, ToLower unicodeLower u ∉ e.2) →
      ∃ v names, (v, names) ∈ DigitalFormatMap ∧ ToLower unicodeLower t ∈ names ∧
        (∀ v' names', (v', names') ∈ DigitalFormatMap →
          ToLower unicodeLower t ∈ names' → v' = v) ∧
        findSource unicodeLower order fields = (v, (k : Int)) ∧
        0 ≤ (k : Int) ∧ (k : Int) < fields.length) := by
  unfold findSource
  rw [findSourceFrom_eq_scanFrom]
  exact scan_spec unicodeLower DigitalFormatMap UnknownDigitalFormat DigitalFormatMap_disjoint
    order fields

theorem findSource_spec_witness :
    ∃ v names, (v, names) ∈ DigitalFormatMap ∧ ToLower id "WEB-DL".toList ∈ names ∧
      (∀ v' names', (v', names') ∈ DigitalFormatMap →
        ToLower id "WEB-DL".toList ∈ names' → v' = v) ∧
      findSource id (fun _ => sourceFormatOrder) ["Movie".toList, "WEB-DL".toList, "HDTV".toList]
        = (v, ((1 : Nat) : Int)) ∧
      0 ≤ ((1 : Nat) : Int) ∧
      ((1 : Nat) : Int) < ["Movie".toList, "WEB-DL".toList, "HDTV".toList].length :=
  (findSource_spec id (fun _ => sourceFormatOrder)
    ["Movie".toList, "WEB-DL".toList, "HDTV".toList]).2 1 "WEB-DL".toList (by decide)
    (by decide)
    (by
      intro j u hj hu
      interval_cases j
      all_goals
        simp only [List.getElem?_cons_zero, List.getElem?_cons_succ, Option.some.injEq] at hu
        subst hu
        decide)

/-- Claim C9. `findResolution` returns `(UnknownResolution, -1)` exactly when no field
lowercases to an alias of `DigitalResolutionMap`; and when the field at index `k` is the first
one that lowercases to an alias, it returns `(r, k)` where `r` is the one variant of
`DigitalResolutionMap` (`FHD`, `HD` or `UHD4K`) whose alias list contains the lowercased
field. This holds for every case table and every order in which the map entries are
visited. -/
theorem findResolution_spec (unicodeLower : Char → Char) (order : Nat → ResolutionOrder)
    (fields : List GoString) :
    (findResolution unicodeLower order fields = (UnknownResolution, -1) ↔
      ∀ t ∈ fields, ∀ e ∈ DigitalResolutionMap, ToLower unicodeLower t ∉ e.2) ∧
    (∀ (k : Nat) (t : GoString), fields[k]? = some t →
      (∃ e ∈ DigitalResolutionMap, ToLower unicodeLower t ∈ e.2) →
      (∀ j u, j < k → fields[j]? = some u →
        ∀ e ∈ DigitalResolutionMap, ToLower unicodeLower u ∉ e.2) →
      ∃ r names, (r, names) ∈ DigitalResolutionMap ∧ ToLower unicodeLower t ∈ names ∧
        (r = FHD ∨ r = HD ∨ r = UHD4K) ∧
        (∀ r' names', (r', names') ∈ DigitalResolutionMap →
          ToLower unicodeLower t ∈ names' → r' = r) ∧
        findResolution unicodeLower order fields = (r, (k : Int))) := by
  unfold findResolution
  rw [findResolutionFrom_eq_scanFrom]
  obtain ⟨h1, h2⟩ := scan_spec unicodeLower DigitalResolutionMap UnknownResolution
    DigitalResolutionMap_disjoint order fields
  refine ⟨h1, ?_⟩
  intro k t hk hex hmin
  obtain ⟨r, names, hr, ht, huniq, hres, _, _⟩ := h2 k t hk hex hmin
  refine ⟨r, names, hr, ht, ?_, huniq, hres⟩
  simp only [DigitalResolutionMap, List.mem_cons, Prod.mk.injEq, List.mem_singleton] at hr
  simp only [List.not_mem_nil, or_false] at hr
  rcases hr with ⟨h, _⟩ | ⟨h, _⟩ | ⟨h, _⟩
  · exact Or.inl h
  · exact Or.inr (Or.inl h)
  · exact Or.inr (Or.inr h)

theorem findResolution_spec_witness :
    ∃ r names, (r, names) ∈ DigitalResolutionMap ∧ ToLower id "720P".toList ∈ names ∧
      (r = FHD ∨ r = HD ∨ r = UHD4K) ∧
      (∀ r' names', (r', names') ∈ DigitalResolutionMap →
        ToLower id "720P".toList ∈ names' → r' = r) ∧
      findResolution id (fun _ => sourceResolutionOrder)
        ["Movie".toList, "2020".toList, "720P".toList, "4k".toList] = (r, ((2 : Nat) : Int)) :=
  (findResolution_spec id (fun _ => sourceResolutionOrder)
    ["Movie".toList, "2020".toList, "720P".toList, "4k".toList]).2 2 "720P".toList (by decide)
    (by decide)
    (by
      intro j u hj hu
      interval_cases j
      all_goals
        simp only [List.getElem?_cons_zero, List.getElem?_cons_succ, Option.some.injEq] at hu
        subst hu
        decide)

/-! ## The group extractor -/

theorem lastIndexFrom_not_mem (c : Char) (s : List Char) (h : c ∉ s) :
    ∀ i acc, lastIndexFrom c i acc s = acc := by
  induction s with
  | nil => intro i acc; rfl
  | cons r rs ih =>
    intro i acc
    have hr : ¬ r = c := fun e => h (by simp [e])
    simp only [lastIndexFrom, if_neg hr]
    exact ih (fun hm => h (by simp [hm])) _ _

theorem lastIndexFrom_last (c : Char) (pre suf : List Char) (h : c ∉ suf) :
    ∀ i acc, lastIndexFrom c i acc (pre ++ c :: suf) = i + pre.length := by
  induction pre with
  | nil =>
    intro i acc
    simp [lastIndexFrom, lastIndexFrom_not_mem c suf h]
  | cons r rs ih =>
    intro i acc
    show lastIndexFrom c i acc (r :: (rs ++ c :: suf)) = _
    simp only [lastIndexFrom]
    rw [ih]
    simp only [List.length_cons, Nat.cast_add, Nat.cast_one]
    ring

theorem LastIndex_not_mem (c : Char) (s : GoString) (h : c ∉ s) : LastIndex s c = -1 :=
  lastIndexFrom_not_mem c s h 0 (-1)

theorem LastIndex_last (c : Char) (pre suf : GoString) (h : c ∉ suf) :
    LastIndex (pre ++ c :: suf) c = pre.length := by
  unfold LastIndex
  rw [lastIndexFrom_last c pre suf h]
  simp

theorem sliceFrom_after (c : Char) (pre suf : GoString) :
    sliceFrom (pre ++ c :: suf) ((pre.length : Int) + 1) = suf := by
  unfold sliceFrom
  have : ((pre.length : Int) + 1).toNat = pre.length + 1 := by omega
  rw [this]
  simp

theorem findGroup_of_getLast (fields : List GoString) (last : GoString)
    (h : fields.getLast? = some last) :
    findGroup fields =
      if LastIndex last '-' ≥ 0 then
        (if LastIndex (sliceFrom last (LastIndex last '-' + 1)) '@' ≥ 0 then
          sliceFrom (sliceFrom last (LastIndex last '-' + 1))
            (LastIndex (sliceFrom last (LastIndex last '-' + 1)) '@' + 1)
        else sliceFrom last (LastIndex last '-' + 1))
      else [] := by
  have hne : fields ≠ [] := by
    rintro rfl
    simp at h
  have hlen : ¬ fields.length ≤ 0 := by
    have := List.length_pos.2 hne
    omega
  have hlast : fields.getLastD [] = last := by
    rw [List.getLastD_eq_getLast?, h]
    rfl
  unfold findGroup
  rw [if_neg hlen]
  simp only [hlast]

/-- Claim C10. `findGroup` returns `""` for the empty sequence and when the last token has no
`'-'`; otherwise it returns what follows the last `'-'` of the last token, narrowed to what
follows the last `'@'` of that part when the part has an `'@'`; and its result depends on the
last token only. -/
theorem findGroup_spec (fields : List GoString) :
    findGroup [] = [] ∧
    (∀ last, fields.getLast? = some last → '-' ∉ last → findGroup fields = []) ∧
    (∀ pre suf, fields.getLast? = some (pre ++ '-' :: suf) → '-' ∉ suf → '@' ∉ suf →
      findGroup fields = suf) ∧
    (∀ pre mid suf, fields.getLast? = some (pre ++ '-' :: (mid ++ '@' :: suf)) →
      '-' ∉ mid → '-' ∉ suf → '@' ∉ suf → findGroup fields = suf) ∧
    (∀ other : List GoString, other.getLast? = fields.getLast? →
      findGroup other = findGroup fields) := by
  refine ⟨by decide, ?_, ?_, ?_, ?_⟩
  · intro last h hno
    rw [findGroup_of_getLast fields last h, LastIndex_not_mem '-' last hno]
    simp
  · intro pre suf h h1 h2
    rw [findGroup_of_getLast fields _ h, LastIndex_last '-' pre suf h1, sliceFrom_after,
      LastIndex_not_mem '@' suf h2]
    simp
  · intro pre mid suf h h1 h2 h3
    have hms : '-' ∉ mid ++ '@' :: suf := by
      simp only [List.mem_append, List.mem_cons, not_or]
      exact ⟨h1, by decide, h2⟩
    rw [findGroup_of_getLast fields _ h, LastIndex_last '-' pre _ hms, sliceFrom_after,
      LastIndex_last '@' mid suf h3, sliceFrom_after]
    simp
  · intro other h
    cases hf : fields.getLast? with
    | none =>
      rw [hf] at h
      rw [List.getLast?_eq_none_iff] at hf h
      rw [hf, h]
    | some last =>
      rw [hf] at h
      rw [findGroup_of_getLast fields last hf, findGroup_of_getLast other last h]

theorem findGroup_spec_witness :
    findGroup ["Movie".toList, "720p-TAG@SITE".toList] = "SITE".toList :=
  (findGroup_spec ["Movie".toList, "720p-TAG@SITE".toList]).2.2.2.1
    "720p".toList "TAG".toList "SITE".toList (by decide) (by decide) (by decide) (by decide)

/-! ## The orchestrator -/

theorem minPositive_three (a b c : Int) :
    (minPositive [a, b, c] = MaxInt32 ∧ ∀ x ∈ [a, b, c], ¬ (0 ≤ x ∧ x < MaxInt32)) ∨
    (minPositive [a, b, c] ∈ [a, b, c] ∧ 0 ≤ minPositive [a, b, c] ∧
      minPositive [a, b, c] < MaxInt32 ∧
      ∀ x ∈ [a, b, c], 0 ≤ x → minPositive [a, b, c] ≤ x) := by
  simp only [minPositive, MaxInt32, List.foldl, List.mem_cons, List.mem_singleton,
    List.not_mem_nil, or_false, forall_eq_or_imp, forall_eq, ge_iff_le]
  split_ifs <;> omega

theorem minPositive_le (a b c x : Int) (hx : x ∈ [a, b, c]) (h0 : 0 ≤ x) :
    0 ≤ minPositive [a, b, c] ∧ minPositive [a, b, c] ≤ x := by
  rcases minPositive_three a b c with ⟨h1, h2⟩ | ⟨_, h2, _, h4⟩
  · have := h2 x hx
    rw [h1]
    simp only [MaxInt32] at this ⊢
    omega
  · exact ⟨h2, h4 x hx h0⟩

theorem minPositive_none (a b c : Int) (ha : a = -1) (hb : b = -1) (hc : c = -1) :
    minPositive [a, b, c] = MaxInt32 := by
  subst ha hb hc
  decide

theorem sliceTo_of_le (fields : List GoString) (high : Int) (h0 : 0 ≤ high)
    (h1 : high ≤ (fields.length : Int)) :
    sliceTo fields high = some (fields.take high.toNat) := by
  unfold sliceTo
  rw [if_pos ⟨h0, h1⟩]

theorem sliceTo_of_gt (fields : List GoString) (high : Int) (h : (fields.length : Int) < high) :
    sliceTo fields high = none := by
  unfold sliceTo
  rw [if_neg]
  omega

section Orchestrator

variable (unicodeLower : Char → Char) (formatOrder : Nat → FormatOrder)
  (resolutionOrder : Nat → ResolutionOrder)

/-- The body of `ParseHDCTitle` after the test for the empty title. -/
theorem ParseHDCTitle_of_ne (title : GoString) (h : title ≠ []) :
    ParseHDCTitle unicodeLower formatOrder resolutionOrder title =
      match sliceTo (split title)
        (minPositive [(findYear (split title)).2,
          (findSource unicodeLower formatOrder (split title)).2,
          (findResolution unicodeLower resolutionOrder (split title)).2]) with
      | none => none
      | some titleFields =>
        some { Title := Join titleFields " ".toList, Year := (findYear (split title)).1,
               Group := findGroup (split title),
               Source := (findSource unicodeLower formatOrder (split title)).1,
               Resolution := (findResolution unicodeLower resolutionOrder (split title)).1 } := by
  unfold ParseHDCTitle
  simp only [if_neg h]

/-- With no recognizable field and fewer than `math.MaxInt32` tokens the slice expression
`fields[:minIndex]` is out of range. -/
theorem ParseHDCTitle_none_of_no_match (title : GoString) (h : title ≠ [])
    (hy : (findYear (split title)).2 = -1)
    (hs : (findSource unicodeLower formatOrder (split title)).2 = -1)
    (hr : (findResolution unicodeLower resolutionOrder (split title)).2 = -1)
    (hlen : ((split title).length : Int) < MaxInt32) :
    ParseHDCTitle unicodeLower formatOrder resolutionOrder title = none := by
  rw [ParseHDCTitle_of_ne unicodeLower formatOrder resolutionOrder title h,
    minPositive_none _ _ _ hy hs hr, sliceTo_of_gt _ _ hlen]

/-- As soon as one scanner reports an index the slice expression is in range. -/
theorem ParseHDCTitle_some_of_match (title : GoString) (h : title ≠ []) (x : Int)
    (hx : x ∈ [(findYear (split title)).2,
      (findSource unicodeLower formatOrder (split title)).2,
      (findResolution unicodeLower resolutionOrder (split title)).2])
    (h0 : 0 ≤ x) :
    ParseHDCTitle unicodeLower formatOrder resolutionOrder title =
      some { Title := Join ((split title).take
               (minPositive [(findYear (split title)).2,
                 (findSource unicodeLower formatOrder (split title)).2,
                 (findResolution unicodeLower resolutionOrder (split title)).2]).toNat)
               " ".toList,
             Year := (findYear (split title)).1,
             Group := findGroup (split title),
             Source := (findSource unicodeLower formatOrder (split title)).1,
             Resolution := (findResolution unicodeLower resolutionOrder (split title)).1 } := by
  have hxlt : x < ((split title).length : Int) := by
    have hy := findYearFrom_index (split title) 0
    have hs := scanFrom_index unicodeLower DigitalFormatMap UnknownDigitalFormat formatOrder
      (split title) 0
    have hr := scanFrom_index unicodeLower DigitalResolutionMap UnknownResolution
      resolutionOrder (split title) 0
    rw [← findSourceFrom_eq_scanFrom] at hs
    rw [← findResolutionFrom_eq_scanFrom] at hr
    simp only [List.mem_cons, List.mem_singleton, List.not_mem_nil, or_false] at hx
    simp only [findYear, findSource, findResolution] at hx
    push_cast at hs hr
    rcases hx with rfl | rfl | rfl <;> omega
  obtain ⟨hm0, hmx⟩ := minPositive_le _ _ _ x hx h0
  rw [ParseHDCTitle_of_ne unicodeLower formatOrder resolutionOrder title h,
    sliceTo_of_le _ _ hm0 (by omega)]

end Orchestrator

theorem toLowerRune_ascii (unicodeLower : Char → Char) (c : Char) (h : c.toNat < 128) :
    toLowerRune unicodeLower c = toLowerRune id c := by
  simp [toLowerRune, h]

/-- On an ASCII string `strings.ToLower` does not consult the case table. -/
theorem ToLower_ascii (unicodeLower : Char → Char) (t : GoString)
    (h : ∀ c ∈ t, c.toNat < 128) : ToLower unicodeLower t = ToLower id t := by
  unfold ToLower
  exact List.map_congr_left (fun c hc => toLowerRune_ascii unicodeLower c (h c hc))

theorem findSource_no_alias (unicodeLower : Char → Char) (order : Nat → FormatOrder)
    (fields : List GoString)
    (h : ∀ t ∈ fields, ∀ e ∈ DigitalFormatMap, ToLower unicodeLower t ∉ e.2) :
    findSource unicodeLower order fields = (UnknownDigitalFormat, -1) := by
  unfold findSource
  rw [findSourceFrom_eq_scanFrom]
  exact scanFrom_none unicodeLower DigitalFormatMap UnknownDigitalFormat order fields h 0

theorem findResolution_no_alias (unicodeLower : Char → Char) (order : Nat → ResolutionOrder)
    (fields : List GoString)
    (h : ∀ t ∈ fields, ∀ e ∈ DigitalResolutionMap, ToLower unicodeLower t ∉ e.2) :
    findResolution unicodeLower order fields = (UnknownResolution, -1) := by
  unfold findResolution
  rw [findResolutionFrom_eq_scanFrom]
  exact scanFrom_none unicodeLower DigitalResolutionMap UnknownResolution order fields h 0

/-- A title of ASCII tokens, none of them a year or an alias, and fewer than `math.MaxInt32`
of them: `ParseHDCTitle` fails, for every case table and every visiting order. -/
theorem ParseHDCTitle_none_of_ascii (unicodeLower : Char → Char)
    (formatOrder : Nat → FormatOrder) (resolutionOrder : Nat → ResolutionOrder)
    (title : GoString) (fields : List GoString) (hsplit : split title = fields)
    (hne : title ≠ []) (hasc : ∀ t ∈ fields, ∀ c ∈ t, c.toNat < 128)
    (hy : ∀ t ∈ fields, tryParseYear t = none)
    (hs : ∀ t ∈ fields, ∀ e ∈ DigitalFormatMap, ToLower id t ∉ e.2)
    (hr : ∀ t ∈ fields, ∀ e ∈ DigitalResolutionMap, ToLower id t ∉ e.2)
    (hlen : fields.length < 2147483647) :
    ParseHDCTitle unicodeLower formatOrder resolutionOrder title = none := by
  apply ParseHDCTitle_none_of_no_match unicodeLower formatOrder resolutionOrder title hne
  · rw [hsplit, (findYear_none_iff fields).2 hy]
  · rw [hsplit, findSource_no_alias unicodeLower formatOrder fields]
    intro t ht e he
    rw [ToLower_ascii unicodeLower t (hasc t ht)]
    exact hs t ht e he
  · rw [hsplit, findResolution_no_alias unicodeLower resolutionOrder fields]
    intro t ht e he
    rw [ToLower_ascii unicodeLower t (hasc t ht)]
    exact hr t ht e he
  · rw [hsplit]
    simp only [MaxInt32]
    exact_mod_cast hlen

/-- Claim C1. `ParseHDCTitle` does not return for every input: on a title made only of
delimiters, and on a title none of whose tokens is a year, a source alias or a resolution
alias, `minPositive` answers `math.MaxInt32` and the slice expression `fields[:minIndex]` is
out of range, whatever the case table and the order of the map visits. -/
theorem ParseHDCTitle_not_total (unicodeLower : Char → Char) (formatOrder : Nat → FormatOrder)
    (resolutionOrder : Nat → ResolutionOrder) :
    ParseHDCTitle unicodeLower formatOrder resolutionOrder ". .".toList = none ∧
    ParseHDCTitle unicodeLower formatOrder resolutionOrder "Hello World".toList = none ∧
    minPositive [-1, -1, -1] = 2147483647 ∧
    sliceTo (split "Hello World".toList) 2147483647 = none :=
  ⟨ParseHDCTitle_none_of_ascii unicodeLower formatOrder resolutionOrder ". .".toList []
      (by decide) (by decide) (by decide) (by decide) (by decide) (by decide) (by decide),
   ParseHDCTitle_none_of_ascii unicodeLower formatOrder resolutionOrder "Hello World".toList
      ["Hello".toList, "World".toList]
      (by decide) (by decide) (by decide) (by decide) (by decide) (by decide) (by decide),
   by decide, by decide⟩

/-- Claim C2. On the input `"NoYearNoFormatNoRes"`, whose one token is not a year, a source
alias or a resolution alias, `ParseHDCTitle` does not return a `MovieInfo`: the three scanners
answer index `-1`, `minPositive` answers `math.MaxInt32`, and slicing the one-token sequence
up to that bound fails. -/
theorem ParseHDCTitle_unrecognized (unicodeLower : Char → Char)
    (formatOrder : Nat → FormatOrder) (resolutionOrder : Nat → ResolutionOrder) :
    split "NoYearNoFormatNoRes".toList = ["NoYearNoFormatNoRes".toList] ∧
    findYear (split "NoYearNoFormatNoRes".toList) = (-1, -1) ∧
    findSource unicodeLower formatOrder (split "NoYearNoFormatNoRes".toList)
      = (UnknownDigitalFormat, -1) ∧
    findResolution unicodeLower resolutionOrder (split "NoYearNoFormatNoRes".toList)
      = (UnknownResolution, -1) ∧
    ParseHDCTitle unicodeLower formatOrder resolutionOrder "NoYearNoFormatNoRes".toList
      = none := by
  have hsplit : split "NoYearNoFormatNoRes".toList = ["NoYearNoFormatNoRes".toList] := by decide
  have hasc : ∀ t ∈ ["NoYearNoFormatNoRes".toList], ∀ c ∈ t, c.toNat < 128 := by decide
  refine ⟨hsplit, ?_, ?_, ?_, ?_⟩
  · rw [hsplit]; decide
  · rw [hsplit]
    apply findSource_no_alias
    intro t ht e he
    rw [ToLower_ascii unicodeLower t (hasc t ht)]
    revert t e
    decide
  · rw [hsplit]
    apply findResolution_no_alias
    intro t ht e he
    rw [ToLower_ascii unicodeLower t (hasc t ht)]
    revert t e
    decide
  · exact ParseHDCTitle_none_of_ascii unicodeLower formatOrder resolutionOrder _ _ hsplit
      (by decide) hasc (by decide) (by decide) (by decide) (by decide)

/-- Claim C3. On the empty input `ParseHDCTitle` returns the zero value `MovieInfo{}`, whose
fields are `Title = ""`, `Year = 0`, `Group = ""`, `Source = Blueray` (the constant `0` of
`DigitalFormat`) and `Resolution = FHD` (the constant `0` of `DigitalResolution`); this is not
the all-absent value with `Year = -1`, `UnknownDigitalFormat` and `UnknownResolution`. -/
theorem ParseHDCTitle_empty (unicodeLower : Char → Char) (formatOrder : Nat → FormatOrder)
    (resolutionOrder : Nat → ResolutionOrder) :
    ParseHDCTitle unicodeLower formatOrder resolutionOrder "".toList
      = some { Title := "".toList, Year := 0, Group := "".toList, Source := Blueray,
               Resolution := FHD } ∧
    ParseHDCTitle unicodeLower formatOrder resolutionOrder "".toList
      ≠ some { Title := "".toList, Year := -1, Group := "".toList,
               Source := UnknownDigitalFormat, Resolution := UnknownResolution } := by
  have h : ParseHDCTitle unicodeLower formatOrder resolutionOrder "".toList
      = some { Title := "".toList, Year := 0, Group := "".toList, Source := Blueray,
               Resolution := FHD } := rfl
  refine ⟨h, ?_⟩
  rw [h]
  decide

/-- Claim C6. `findYear` returns `(-1, -1)` exactly when no token qualifies as a year; when the
token at index `k` is the first one that qualifies, `findYear` returns `(y, k)` with `y` the
integer value of that token, and for every input with this tokenization `ParseHDCTitle`
returns a `MovieInfo` whose `Year` is `y`. -/
theorem findYear_spec (fields : List GoString) :
    (findYear fields = (-1, -1) ↔ ∀ t ∈ fields, tryParseYear t = none) ∧
    (∀ (k : Nat) (t : GoString) (y : Int), fields[k]? = some t → tryParseYear t = some y →
      (∀ j u, j < k → fields[j]? = some u → tryParseYear u = none) →
      findYear fields = (y, (k : Int)) ∧ y = decimalValue t ∧
      ∀ (unicodeLower : Char → Char) (formatOrder : Nat → FormatOrder)
        (resolutionOrder : Nat → ResolutionOrder) (title : GoString), split title = fields →
        ∃ m, ParseHDCTitle unicodeLower formatOrder resolutionOrder title = some m ∧
          m.Year = y) := by
  refine ⟨findYear_none_iff fields, ?_⟩
  intro k t y hk ht hmin
  have hfind := findYear_first fields k t y hk ht hmin
  refine ⟨hfind, (tryParseYear_some t y ht).2.1, ?_⟩
  intro unicodeLower formatOrder resolutionOrder title hsplit
  have hne : title ≠ [] := by
    rintro rfl
    rw [split_nil] at hsplit
    rw [← hsplit] at hk
    simp at hk
  have hx : (k : Int) ∈ [(findYear (split title)).2,
      (findSource unicodeLower formatOrder (split title)).2,
      (findResolution unicodeLower resolutionOrder (split title)).2] := by
    rw [hsplit, hfind]
    simp
  refine ⟨_, ParseHDCTitle_some_of_match unicodeLower formatOrder resolutionOrder title hne
    (k : Int) hx (by omega), ?_⟩
  simp only [hsplit, hfind]

theorem findYear_spec_witness :
    findYear ["The".toList, "0999".toList, "2015".toList, "1999".toList]
      = (2015, ((2 : Nat) : Int)) ∧
    (2015 : Int) = decimalValue "2015".toList ∧
    ∀ (unicodeLower : Char → Char) (formatOrder : Nat → FormatOrder)
      (resolutionOrder : Nat → ResolutionOrder) (title : GoString),
      split title = ["The".toList, "0999".toList, "2015".toList, "1999".toList] →
      ∃ m, ParseHDCTitle unicodeLower formatOrder resolutionOrder title = some m ∧
        m.Year = 2015 :=
  (findYear_spec ["The".toList, "0999".toList, "2015".toList, "1999".toList]).2
    2 "2015".toList 2015 (by decide) (by decide)
    (by
      intro j u hj hu
      interval_cases j
      all_goals
        simp only [List.getElem?_cons_zero, List.getElem?_cons_succ, Option.some.injEq] at hu
        subst hu
        decide)

/-- With at most `math.MaxInt32` tokens `minPositive` picks the least of the indices reported
by the scanners. -/
theorem minPositive_least (a b c x L : Int) (hx : x ∈ [a, b, c]) (h0 : 0 ≤ x)
    (hL : ∀ z ∈ [a, b, c], z < L) (hsmall : L ≤ MaxInt32) :
    minPositive [a, b, c] ∈ [a, b, c] ∧ 0 ≤ minPositive [a, b, c] ∧
      minPositive [a, b, c] < L ∧
      ∀ z ∈ [a, b, c], 0 ≤ z → minPositive [a, b, c] ≤ z := by
  rcases minPositive_three a b c with ⟨_, h2⟩ | ⟨h1, h2, _, h4⟩
  · have := h2 x hx
    have := hL x hx
    omega
  · refine ⟨h1, h2, ?_, h4⟩
    have := h4 x hx h0
    have := hL x hx
    omega

theorem manyTokens_succ (n : Nat) : manyTokens (n + 1) = ['a'] ++ '.' :: manyTokens n := by
  simp [manyTokens, List.replicate_succ]

theorem split_manyTokens (n : Nat) :
    split (manyTokens n) = List.replicate n "a".toList ++ ["2015".toList] := by
  induction n with
  | zero => decide
  | succ n ih =>
    rw [manyTokens_succ, split_append_delim ['a'] (manyTokens n) '.' (Or.inl rfl), ih,
      List.replicate_succ]
    rfl

theorem manyTokens_ne_nil (n : Nat) : manyTokens n ≠ [] := by
  simp [manyTokens]

theorem Join_replicate_length (a sep : GoString) (k : Nat) :
    (Join (List.replicate (k + 1) a) sep).length = (k + 1) * a.length + k * sep.length := by
  induction k with
  | zero => simp [Join]
  | succ k ih =>
    rw [List.replicate_succ, List.replicate_succ]
    rw [List.replicate_succ] at ih
    simp only [Join, List.length_append, ih]
    ring

section ManyTokens

variable (unicodeLower : Char → Char) (formatOrder : Nat → FormatOrder)
  (resolutionOrder : Nat → ResolutionOrder)

theorem manyTokens_fields (n : Nat) (t : GoString)
    (ht : t ∈ List.replicate n "a".toList ++ ["2015".toList]) :
    t = "a".toList ∨ t = "2015".toList := by
  simp only [List.mem_append, List.mem_singleton] at ht
  rcases ht with h | h
  · exact Or.inl (List.eq_of_mem_replicate h)
  · exact Or.inr h

theorem findYear_manyTokens (n : Nat) :
    findYear (split (manyTokens n)) = (2015, (n : Int)) := by
  rw [split_manyTokens]
  unfold findYear
  rw [findYearFrom_first (List.replicate n "a".toList) "2015".toList [] 2015 ?_ (by decide) 0]
  · simp
  · intro p hp
    rw [List.eq_of_mem_replicate hp]
    decide

theorem findSource_manyTokens (n : Nat) :
    findSource unicodeLower formatOrder (split (manyTokens n)) = (UnknownDigitalFormat, -1) := by
  rw [split_manyTokens]
  apply findSource_no_alias
  intro t ht e he
  rcases manyTokens_fields n t ht with rfl | rfl
  · rw [ToLower_ascii unicodeLower _ (by decide)]
    revert e
    decide
  · rw [ToLower_ascii unicodeLower _ (by decide)]
    revert e
    decide

theorem findResolution_manyTokens (n : Nat) :
    findResolution unicodeLower resolutionOrder (split (manyTokens n))
      = (UnknownResolution, -1) := by
  rw [split_manyTokens]
  apply findResolution_no_alias
  intro t ht e he
  rcases manyTokens_fields n t ht with rfl | rfl
  · rw [ToLower_ascii unicodeLower _ (by decide)]
    revert e
    decide
  · rw [ToLower_ascii unicodeLower _ (by decide)]
    revert e
    decide

/-- The result of `ParseHDCTitle`, assembled from the results of its steps. -/
theorem ParseHDCTitle_of_results (title : GoString) (h : title ≠ []) (y yi : Int)
    (s : DigitalFormat) (si : Int) (r : DigitalResolution) (ri : Int)
    (titleFields : List GoString) (hy : findYear (split title) = (y, yi))
    (hs : findSource unicodeLower formatOrder (split title) = (s, si))
    (hr : findResolution unicodeLower resolutionOrder (split title) = (r, ri))
    (hslice : sliceTo (split title) (minPositive [yi, si, ri]) = some titleFields) :
    ParseHDCTitle unicodeLower formatOrder resolutionOrder title =
      some { Title := Join titleFields " ".toList, Year := y,
             Group := findGroup (split title), Source := s, Resolution := r } := by
  rw [ParseHDCTitle_of_ne unicodeLower formatOrder resolutionOrder title h, hy, hs, hr]
  simp only [hslice]

theorem sliceTo_manyTokens (n : Nat) (hn : 2147483647 < n) :
    sliceTo (split (manyTokens n)) (minPositive [(n : Int), -1, -1])
      = some (List.replicate 2147483647 "a".toList) := by
  have hmin : minPositive [(n : Int), -1, -1] = MaxInt32 := by
    rcases minPositive_three (n : Int) (-1) (-1) with ⟨h1, _⟩ | ⟨h1, h2, h3, _⟩
    · exact h1
    · simp only [List.mem_cons, List.mem_singleton, List.not_mem_nil, or_false] at h1
      simp only [MaxInt32] at h3
      omega
  have hlen : MaxInt32 ≤ ((split (manyTokens n)).length : Int) := by
    rw [split_manyTokens]
    simp only [List.length_append, List.length_replicate, List.length_singleton, MaxInt32]
    omega
  have h1 : MaxInt32.toNat = 2147483647 := by decide
  rw [hmin, sliceTo_of_le _ _ (by decide) hlen, h1, split_manyTokens,
    List.take_append_of_le_length (by simp; omega), List.take_replicate,
    Nat.min_eq_left (by omega)]

/-- Beyond `math.MaxInt32` tokens the cut index is `math.MaxInt32`, not the index of the
year. -/
theorem ParseHDCTitle_manyTokens (n : Nat) (hn : 2147483647 < n) :
    ParseHDCTitle unicodeLower formatOrder resolutionOrder (manyTokens n) =
      some { Title := Join (List.replicate 2147483647 "a".toList) " ".toList, Year := 2015,
             Group := findGroup (split (manyTokens n)),
             Source := UnknownDigitalFormat, Resolution := UnknownResolution } :=
  ParseHDCTitle_of_results unicodeLower formatOrder resolutionOrder (manyTokens n)
    (manyTokens_ne_nil n) 2015 (n : Int) UnknownDigitalFormat (-1) UnknownResolution (-1)
    (List.replicate 2147483647 "a".toList) (findYear_manyTokens n)
    (findSource_manyTokens unicodeLower formatOrder n)
    (findResolution_manyTokens unicodeLower resolutionOrder n) (sliceTo_manyTokens n hn)

end ManyTokens
/-- With at most `math.MaxInt32` tokens, and some field recognized, the title is cut at the
least index reported by the scanners. -/
theorem ParseHDCTitle_title_of_match (unicodeLower : Char → Char)
    (formatOrder : Nat → FormatOrder) (resolutionOrder : Nat → ResolutionOrder)
    (title : GoString) (h : title ≠ []) (x : Int)
    (hx : x ∈ [(findYear (split title)).2,
      (findSource unicodeLower formatOrder (split title)).2,
      (findResolution unicodeLower resolutionOrder (split title)).2])
    (h0 : 0 ≤ x) (hsmall : (split title).length ≤ 2147483647) :
    ∃ c : Nat,
      (c : Int) ∈ [(findYear (split title)).2,
        (findSource unicodeLower formatOrder (split title)).2,
        (findResolution unicodeLower resolutionOrder (split title)).2] ∧
      (∀ z ∈ [(findYear (split title)).2,
        (findSource unicodeLower formatOrder (split title)).2,
        (findResolution unicodeLower resolutionOrder (split title)).2],
        0 ≤ z → (c : Int) ≤ z) ∧
      c < (split title).length ∧
      ∃ m, ParseHDCTitle unicodeLower formatOrder resolutionOrder title = some m ∧
        m.Title = Join ((split title).take c) " ".toList := by
  have hL : ∀ z ∈ [(findYear (split title)).2,
      (findSource unicodeLower formatOrder (split title)).2,
      (findResolution unicodeLower resolutionOrder (split title)).2],
      z < ((split title).length : Int) := by
    intro z hz
    have hy := findYearFrom_index (split title) 0
    have hs := scanFrom_index unicodeLower DigitalFormatMap UnknownDigitalFormat formatOrder
      (split title) 0
    have hr := scanFrom_index unicodeLower DigitalResolutionMap UnknownResolution
      resolutionOrder (split title) 0
    rw [← findSourceFrom_eq_scanFrom] at hs
    rw [← findResolutionFrom_eq_scanFrom] at hr
    simp only [List.mem_cons, List.mem_singleton, List.not_mem_nil, or_false] at hz
    simp only [findYear, findSource, findResolution] at hz
    push_cast at hs hr
    rcases hz with rfl | rfl | rfl <;> omega
  obtain ⟨h1, h2, h3, h4⟩ := minPositive_least _ _ _ x _ hx h0 hL
    (by simp only [MaxInt32]; exact_mod_cast hsmall)
  refine ⟨(minPositive [(findYear (split title)).2,
      (findSource unicodeLower formatOrder (split title)).2,
      (findResolution unicodeLower resolutionOrder (split title)).2]).toNat, ?_, ?_, ?_, ?_⟩
  · rw [Int.toNat_of_nonneg h2]; exact h1
  · rw [Int.toNat_of_nonneg h2]; exact h4
  · omega
  · exact ⟨_, ParseHDCTitle_some_of_match unicodeLower formatOrder resolutionOrder title h x
      hx h0, rfl⟩
theorem take_split_manyTokens (n k : Nat) (hk : k ≤ n) :
    (split (manyTokens n)).take k = List.replicate k "a".toList := by
  rw [split_manyTokens, List.take_append_of_le_length (by simpa using hk), List.take_replicate,
    Nat.min_eq_left hk]

theorem Join_replicate_a_length (k : Nat) (hk : 0 < k) :
    (Join (List.replicate k "a".toList) " ".toList).length + 1 = 2 * k := by
  obtain ⟨j, rfl⟩ := Nat.exists_eq_succ_of_ne_zero (Nat.pos_iff_ne_zero.1 hk)
  rw [Join_replicate_length]
  simp only [String.toList, List.length_cons, List.length_nil]
  omega

theorem Join_replicate_a_ne (j k : Nat) (hj : 0 < j) (hk : 0 < k) (hjk : j ≠ k) :
    Join (List.replicate j "a".toList) " ".toList
      ≠ Join (List.replicate k "a".toList) " ".toList := by
  intro h
  have h1 := Join_replicate_a_length j hj
  have h2 := Join_replicate_a_length k hk
  rw [h] at h1
  omega

/-- Claim C4. The title is not always cut at the least index reported by the scanners. On the
title of 2147483648 tokens `a` followed by the token `2015` (on a platform with 64-bit `int`)
`findYear` reports index 2147483648 and the other scanners report `-1`, so the least
non-negative index is 2147483648; but `minPositive` answers its initial value
`math.MaxInt32 = 2147483647`, and the `Title` returned is the first 2147483647 tokens joined
by spaces, which differs from the first 2147483648 tokens joined by spaces. -/
theorem ParseHDCTitle_cut_capped (unicodeLower : Char → Char)
    (formatOrder : Nat → FormatOrder) (resolutionOrder : Nat → ResolutionOrder) :
    findYear (split (manyTokens 2147483648)) = (2015, 2147483648) ∧
    findSource unicodeLower formatOrder (split (manyTokens 2147483648))
      = (UnknownDigitalFormat, -1) ∧
    findResolution unicodeLower resolutionOrder (split (manyTokens 2147483648))
      = (UnknownResolution, -1) ∧
    minPositive [2147483648, -1, -1] = 2147483647 ∧
    ∃ m, ParseHDCTitle unicodeLower formatOrder resolutionOrder (manyTokens 2147483648)
        = some m ∧
      m.Title = Join ((split (manyTokens 2147483648)).take 2147483647) " ".toList ∧
      m.Title ≠ Join ((split (manyTokens 2147483648)).take 2147483648) " ".toList := by
  refine ⟨findYear_manyTokens 2147483648, findSource_manyTokens unicodeLower formatOrder _,
    findResolution_manyTokens unicodeLower resolutionOrder _, by decide,
    _, ParseHDCTitle_manyTokens unicodeLower formatOrder resolutionOrder 2147483648
      (by omega), ?_, ?_⟩
  · rw [take_split_manyTokens 2147483648 2147483647 (by omega)]
  · rw [take_split_manyTokens 2147483648 2147483648 (by omega)]
    exact Join_replicate_a_ne 2147483647 2147483648 (by omega) (by omega) (by omega)

/-! ## Scenarios and relational properties -/

/-- Claim C11, as stated, fails: for the final token `"x264-GROUP@SITE"` the result of
`findGroup` is not `"GROUP"`. -/
theorem findGroup_at_counterexample :
    findGroup ["x264-GROUP@SITE".toList] ≠ "GROUP".toList := by decide

/-- Claim C11, amended. For a token sequence whose final token is `"x264-GROUP@SITE"`,
`findGroup` returns `"SITE"`, the part after the last `'@'` of what follows the last `'-'`;
for a final token `"x264-GROUP"` it returns `"GROUP"`. -/
theorem findGroup_examples (front : List GoString) :
    findGroup (front ++ ["x264-GROUP@SITE".toList]) = "SITE".toList ∧
    findGroup (front ++ ["x264-GROUP".toList]) = "GROUP".toList := by
  constructor
  · rw [findGroup_of_getLast _ "x264-GROUP@SITE".toList (by simp)]
    decide
  · rw [findGroup_of_getLast _ "x264-GROUP".toList (by simp)]
    decide
theorem scanFrom_order (unicodeLower : Char → Char) (M : List (Nat × List GoString))
    (unknown : Nat) (hM : DisjointAliases M)
    (order1 order2 : Nat → { l : List (Nat × List GoString) // l.Perm M })
    (fields : List GoString) :
    ∀ i, scanFrom unicodeLower M unknown order1 i fields
      = scanFrom unicodeLower M unknown order2 i fields := by
  induction fields with
  | nil => intro i; rfl
  | cons f rest ih =>
    intro i
    simp only [scanFrom]
    rw [rangeFind_perm M (order1 i).val hM (order1 i).property,
      rangeFind_perm M (order2 i).val hM (order2 i).property, ih]

theorem scanFrom_ascii (unicodeLower : Char → Char) (M : List (Nat × List GoString))
    (unknown : Nat) (order : Nat → { l : List (Nat × List GoString) // l.Perm M })
    (fields : List GoString) (hasc : ∀ t ∈ fields, ∀ c ∈ t, c.toNat < 128) :
    ∀ i, scanFrom unicodeLower M unknown order i fields
      = scanFrom id M unknown order i fields := by
  induction fields with
  | nil => intro i; rfl
  | cons f rest ih =>
    intro i
    simp only [scanFrom]
    rw [ToLower_ascii unicodeLower f (hasc f (by simp)),
      ih (fun t ht => hasc t (by simp [ht]))]

theorem findSource_order (unicodeLower : Char → Char) (order1 order2 : Nat → FormatOrder)
    (fields : List GoString) :
    findSource unicodeLower order1 fields = findSource unicodeLower order2 fields := by
  unfold findSource
  rw [findSourceFrom_eq_scanFrom, findSourceFrom_eq_scanFrom]
  exact scanFrom_order unicodeLower DigitalFormatMap UnknownDigitalFormat
    DigitalFormatMap_disjoint order1 order2 fields 0

theorem findResolution_order (unicodeLower : Char → Char)
    (order1 order2 : Nat → ResolutionOrder) (fields : List GoString) :
    findResolution unicodeLower order1 fields = findResolution unicodeLower order2 fields := by
  unfold findResolution
  rw [findResolutionFrom_eq_scanFrom, findResolutionFrom_eq_scanFrom]
  exact scanFrom_order unicodeLower DigitalResolutionMap UnknownResolution
    DigitalResolutionMap_disjoint order1 order2 fields 0

theorem findSource_ascii (unicodeLower : Char → Char) (order : Nat → FormatOrder)
    (fields : List GoString) (hasc : ∀ t ∈ fields, ∀ c ∈ t, c.toNat < 128) :
    findSource unicodeLower order fields = findSource id order fields := by
  unfold findSource
  rw [findSourceFrom_eq_scanFrom, findSourceFrom_eq_scanFrom]
  exact scanFrom_ascii unicodeLower DigitalFormatMap UnknownDigitalFormat order fields hasc 0

theorem findResolution_ascii (unicodeLower : Char → Char) (order : Nat → ResolutionOrder)
    (fields : List GoString) (hasc : ∀ t ∈ fields, ∀ c ∈ t, c.toNat < 128) :
    findResolution unicodeLower order fields = findResolution id order fields := by
  unfold findResolution
  rw [findResolutionFrom_eq_scanFrom, findResolutionFrom_eq_scanFrom]
  exact scanFrom_ascii unicodeLower DigitalResolutionMap UnknownResolution order fields hasc 0

/-- The outcome of `ParseHDCTitle` does not depend on the order of the map visits. -/
theorem ParseHDCTitle_order (unicodeLower : Char → Char)
    (formatOrder1 formatOrder2 : Nat → FormatOrder)
    (resolutionOrder1 resolutionOrder2 : Nat → ResolutionOrder) (title : GoString) :
    ParseHDCTitle unicodeLower formatOrder1 resolutionOrder1 title
      = ParseHDCTitle unicodeLower formatOrder2 resolutionOrder2 title := by
  by_cases h : title = []
  · subst h; rfl
  · rw [ParseHDCTitle_of_ne _ _ _ title h, ParseHDCTitle_of_ne _ _ _ title h,
      findSource_order unicodeLower formatOrder1 formatOrder2,
      findResolution_order unicodeLower resolutionOrder1 resolutionOrder2]

/-- On a title of ASCII tokens `ParseHDCTitle` can be evaluated with the identity case table
and the visiting orders of the source text. -/
theorem ParseHDCTitle_ascii (unicodeLower : Char → Char) (formatOrder : Nat → FormatOrder)
    (resolutionOrder : Nat → ResolutionOrder) (title : GoString)
    (hasc : ∀ t ∈ split title, ∀ c ∈ t, c.toNat < 128) :
    ParseHDCTitle unicodeLower formatOrder resolutionOrder title
      = ParseHDCTitle id (fun _ => sourceFormatOrder) (fun _ => sourceResolutionOrder)
          title := by
  rw [ParseHDCTitle_order unicodeLower formatOrder (fun _ => sourceFormatOrder)
    resolutionOrder (fun _ => sourceResolutionOrder)]
  by_cases h : title = []
  · subst h; rfl
  · rw [ParseHDCTitle_of_ne _ _ _ title h, ParseHDCTitle_of_ne _ _ _ title h,
      findSource_ascii unicodeLower _ _ hasc, findResolution_ascii unicodeLower _ _ hasc]

/-- Claim C12. `ParseHDCTitle("Some.Movie.Title.2015.1080p.BluRay.x264-GROUP")` returns
`Title = "Some Movie Title"`, `Year = 2015`, `Resolution = FHD`, `Source = Blueray` and
`Group = "GROUP"`, for every case table and every order of the map visits. -/
theorem ParseHDCTitle_scenario1 (unicodeLower : Char → Char)
    (formatOrder : Nat → FormatOrder) (resolutionOrder : Nat → ResolutionOrder) :
    ParseHDCTitle unicodeLower formatOrder resolutionOrder
        "Some.Movie.Title.2015.1080p.BluRay.x264-GROUP".toList
      = some { Title := "Some Movie Title".toList, Year := 2015, Group := "GROUP".toList,
               Source := Blueray, Resolution := FHD } := by
  rw [ParseHDCTitle_ascii unicodeLower formatOrder resolutionOrder _ (by decide)]
  decide

/-- Claim C13, as stated, fails: on `"Movie.2020.WEBDL.720p-TAG@SITE"` the result of
`ParseHDCTitle` is not the one with `Resolution = HD`. -/
theorem scenario2_resolution_counterexample :
    ParseHDCTitle id (fun _ => sourceFormatOrder) (fun _ => sourceResolutionOrder)
        "Movie.2020.WEBDL.720p-TAG@SITE".toList
      ≠ some { Title := "Movie".toList, Year := 2020, Group := "SITE".toList,
               Source := WebDL, Resolution := HD } := by decide

/-- Claim C13, amended. `ParseHDCTitle("Movie.2020.WEBDL.720p-TAG@SITE")` returns
`Year = 2020`, `Source = WebDL`, `Resolution = UnknownResolution`, `Group = "SITE"` and
`Title = "Movie"`: the last token is `"720p-TAG@SITE"` as a whole, which lowercases to no
resolution alias. -/
theorem ParseHDCTitle_scenario2 (unicodeLower : Char → Char)
    (formatOrder : Nat → FormatOrder) (resolutionOrder : Nat → ResolutionOrder) :
    split "Movie.2020.WEBDL.720p-TAG@SITE".toList
      = ["Movie".toList, "2020".toList, "WEBDL".toList, "720p-TAG@SITE".toList] ∧
    ParseHDCTitle unicodeLower formatOrder resolutionOrder
        "Movie.2020.WEBDL.720p-TAG@SITE".toList
      = some { Title := "Movie".toList, Year := 2020, Group := "SITE".toList,
               Source := WebDL, Resolution := UnknownResolution } := by
  refine ⟨by decide, ?_⟩
  rw [ParseHDCTitle_ascii unicodeLower formatOrder resolutionOrder _ (by decide)]
  decide

/-- Claim C16. `findSource` and `findResolution` are deterministic whatever the order of the
map iteration: for every token sequence, any two ways of visiting the entries of
`DigitalFormatMap` (respectively `DigitalResolutionMap`), chosen afresh at every token, give
the same `(variant, index)` pair. -/
theorem scanners_order_independent (unicodeLower : Char → Char) (fields : List GoString)
    (formatOrder1 formatOrder2 : Nat → FormatOrder)
    (resolutionOrder1 resolutionOrder2 : Nat → ResolutionOrder) :
    findSource unicodeLower formatOrder1 fields = findSource unicodeLower formatOrder2 fields ∧
    findResolution unicodeLower resolutionOrder1 fields
      = findResolution unicodeLower resolutionOrder2 fields :=
  ⟨findSource_order unicodeLower formatOrder1 formatOrder2 fields,
   findResolution_order unicodeLower resolutionOrder1 resolutionOrder2 fields⟩

/-- The runes of the aliases are ASCII and are their own lower-case form, as are the lower-case
forms of their upper-case forms. -/
theorem alias_runes_lower :
    ∀ e ∈ DigitalFormatMap, ∀ name ∈ e.2, ∀ a ∈ name,
      a.toNat < 128 ∧ (upperAscii a).toNat < 128 ∧ toLowerRune id a = a ∧
        toLowerRune id (upperAscii a) = a := by decide

theorem ToLower_caseVariant (unicodeLower : Char → Char) :
    ∀ (name t : GoString), caseVariant name t = true →
      (∀ a ∈ name, a.toNat < 128 ∧ (upperAscii a).toNat < 128 ∧ toLowerRune id a = a ∧
        toLowerRune id (upperAscii a) = a) →
      ToLower unicodeLower t = name
  | [], [], _, _ => rfl
  | [], _ :: _, h, _ => by simp [caseVariant] at h
  | _ :: _, [], h, _ => by simp [caseVariant] at h
  | a :: as, c :: cs, h, hst => by
    simp only [caseVariant, Bool.and_eq_true, Bool.or_eq_true, beq_iff_eq] at h
    obtain ⟨hc, hrest⟩ := h
    obtain ⟨h1, h2, h3, h4⟩ := hst a (by simp)
    have ih := ToLower_caseVariant unicodeLower as cs hrest
      (fun x hx => hst x (by simp [hx]))
    have hhead : toLowerRune unicodeLower c = a := by
      rcases hc with rfl | rfl
      · rw [toLowerRune_ascii unicodeLower _ h1, h3]
      · rw [toLowerRune_ascii unicodeLower _ h2, h4]
    unfold ToLower at ih ⊢
    rw [List.map_cons, hhead, ih]

/-- Claim C14. Alias matching is case-insensitive: when `t` is obtained from an alias of
`DigitalFormatMap` by changing the case of any of its letters, `findSource` on the one-token
sequence `[t]` returns the variant that owns the alias, at index `0`. -/
theorem findSource_case_insensitive (unicodeLower : Char → Char) (order : Nat → FormatOrder)
    (v : DigitalFormat) (names : List GoString) (name t : GoString)
    (hv : (v, names) ∈ DigitalFormatMap) (hn : name ∈ names) (ht : caseVariant name t = true) :
    findSource unicodeLower order [t] = (v, 0) := by
  have hlow : ToLower unicodeLower t = name :=
    ToLower_caseVariant unicodeLower name t ht (alias_runes_lower (v, names) hv name hn)
  have hfind := rangeFind_of_mem DigitalFormatMap (order 0).val DigitalFormatMap_disjoint
    (order 0).property (ToLower unicodeLower t) v names hv (by rw [hlow]; exact hn)
  simp only [findSource, findSourceFrom, hfind]
  rfl

theorem findSource_case_insensitive_witness :
    findSource id (fun _ => sourceFormatOrder) ["BluRay".toList] = (Blueray, 0) ∧
    findSource id (fun _ => sourceFormatOrder) ["bluray".toList] = (Blueray, 0) ∧
    findSource id (fun _ => sourceFormatOrder) ["BLURAY".toList] = (Blueray, 0) :=
  ⟨findSource_case_insensitive id (fun _ => sourceFormatOrder) Blueray
      ["bluray".toList, "blu-ray".toList, "blueray".toList, "bd".toList] "bluray".toList
      "BluRay".toList (by decide) (by decide) (by decide),
   findSource_case_insensitive id (fun _ => sourceFormatOrder) Blueray
      ["bluray".toList, "blu-ray".toList, "blueray".toList, "bd".toList] "bluray".toList
      "bluray".toList (by decide) (by decide) (by decide),
   findSource_case_insensitive id (fun _ => sourceFormatOrder) Blueray
      ["bluray".toList, "blu-ray".toList, "blueray".toList, "bd".toList] "bluray".toList
      "BLURAY".toList (by decide) (by decide) (by decide)⟩

/-- Claim C15. The alias lists of `DigitalFormatMap` are pairwise disjoint across its four
variants `Blueray`, `HDTV`, `WebDL`, `UHDTV`, and the alias lists of `DigitalResolutionMap` are
pairwise disjoint across its three variants `FHD`, `HD`, `UHD4K`: no alias string belongs to
the lists of two different variants of the same enumeration. -/
theorem alias_lists_disjoint :
    (∀ e1 ∈ DigitalFormatMap, ∀ e2 ∈ DigitalFormatMap, e1.1 ≠ e2.1 →
      ∀ s ∈ e1.2, s ∉ e2.2) ∧
    (∀ e1 ∈ DigitalResolutionMap, ∀ e2 ∈ DigitalResolutionMap, e1.1 ≠ e2.1 →
      ∀ s ∈ e1.2, s ∉ e2.2) ∧
    DigitalFormatMap.map Prod.fst = [Blueray, HDTV, WebDL, UHDTV] ∧
    DigitalResolutionMap.map Prod.fst = [FHD, HD, UHD4K] := by
  refine ⟨by decide, by decide, rfl, rfl⟩

theorem alias_lists_disjoint_witness : "bd".toList ∉ ["hdtv".toList] :=
  alias_lists_disjoint.1
    (Blueray, ["bluray".toList, "blu-ray".toList, "blueray".toList, "bd".toList]) (by decide)
    (HDTV, ["hdtv".toList]) (by decide) (by decide) "bd".toList (by decide)

/-! ## The title -/

theorem Join_cons_cons (a b : GoString) (rest : List GoString) (sep : GoString) :
    Join (a :: b :: rest) sep = a ++ sep ++ Join (b :: rest) sep := rfl

theorem Join_ne_nil (a : GoString) (rest : List GoString) (sep : GoString) (ha : a ≠ []) :
    Join (a :: rest) sep ≠ [] := by
  cases rest with
  | nil => simpa [Join] using ha
  | cons b rest => simp [Join, ha]

theorem Join_head (a : GoString) (rest : List GoString) (sep : GoString) (ha : a ≠ []) :
    (Join (a :: rest) sep).head? = a.head? := by
  cases rest with
  | nil => simp [Join]
  | cons b rest =>
    rw [Join_cons_cons, List.append_assoc, List.head?_append_of_ne_nil _ ha]

theorem chain_of_no_space (l : List Char) (h : ' ' ∉ l) :
    List.Chain' (fun a b : Char => ¬ (a = ' ' ∧ b = ' ')) l := by
  induction l with
  | nil => exact List.chain'_nil
  | cons x xs ih =>
    rw [List.chain'_cons']
    exact ⟨fun y _ hxy => h (by simp [hxy.1]), ih (fun hm => h (by simp [hm]))⟩

/-- The text of a title: tokens joined by single spaces. -/
theorem Join_tokens (ts : List GoString)
    (hts : ∀ t ∈ ts, t ≠ [] ∧ ∀ c ∈ t, ¬ isDelimiter c) :
    split (Join ts " ".toList) = ts ∧
    '.' ∉ Join ts " ".toList ∧
    (Join ts " ".toList).head? ≠ some ' ' ∧
    (Join ts " ".toList).getLast? ≠ some ' ' ∧
    List.Chain' (fun a b => ¬ (a = ' ' ∧ b = ' ')) (Join ts " ".toList) := by
  induction ts with
  | nil =>
    refine ⟨by decide, by simp [Join], by simp [Join], by simp [Join], by simp [Join]⟩
  | cons a rest ih =>
    obtain ⟨ha, haf⟩ := hts a (by simp)
    have hdot : '.' ∉ a := fun h => haf _ h (Or.inl rfl)
    have hsp : ' ' ∉ a := fun h => haf _ h (Or.inr rfl)
    have hchain := chain_of_no_space a hsp
    cases rest with
    | nil =>
      refine ⟨by simpa [Join] using split_token a ha haf, by simpa [Join] using hdot, ?_, ?_,
        by simpa [Join] using hchain⟩
      · intro h
        exact hsp (List.mem_of_mem_head? (by simpa [Join] using h))
      · intro h
        exact hsp (List.mem_of_getLast?_eq_some (by simpa [Join] using h))
    | cons b rest =>
      obtain ⟨ih1, ih2, ih3, ih4, ih5⟩ := ih (fun t ht => hts t (by simp [ht]))
      have hb : b ≠ [] := (hts b (by simp)).1
      have hJ : Join (b :: rest) " ".toList ≠ [] := Join_ne_nil b rest _ hb
      have hform : Join (a :: b :: rest) " ".toList
          = a ++ ' ' :: Join (b :: rest) " ".toList := by
        rw [Join_cons_cons]
        simp
      rw [hform]
      refine ⟨?_, ?_, ?_, ?_, ?_⟩
      · rw [split_token_append a _ ha haf (Or.inr ⟨' ', _, rfl, Or.inr rfl⟩),
          split_cons_delim ' ' _ (Or.inr rfl), ih1]
      · simp only [List.mem_append, List.mem_cons, not_or]
        exact ⟨hdot, by decide, ih2⟩
      · rw [List.head?_append_of_ne_nil _ ha]
        intro h
        exact hsp (List.mem_of_mem_head? h)
      · rw [List.getLast?_append_of_ne_nil _ (by simp)]
        obtain ⟨j, rest', hJeq⟩ := List.exists_cons_of_ne_nil hJ
        rw [hJeq] at ih4 ⊢
        rw [List.getLast?_cons_cons]
        exact ih4
      · refine List.Chain'.append hchain ?_ ?_
        · rw [List.chain'_cons']
          refine ⟨fun y hy h => ih3 (by rw [Option.mem_def] at hy; rw [hy, h.2]), ih5⟩
        · intro x hx y _ h
          exact hsp (by rw [← h.1]; exact List.mem_of_mem_getLast? hx)

theorem findYearFrom_before (fields : List GoString) :
    ∀ (i : Int) (c : Nat), 0 ≤ i →
      ((findYearFrom i fields).2 = -1 ∨ i + (c : Int) ≤ (findYearFrom i fields).2) →
      ∀ t ∈ fields.take c, tryParseYear t = none := by
  induction fields with
  | nil => intro i c _ _ t ht; simp at ht
  | cons f rest ih =>
    intro i c hi h t ht
    cases c with
    | zero => simp at ht
    | succ c =>
      cases hf : tryParseYear f with
      | some y =>
        simp only [findYearFrom, hf] at h
        exfalso
        rcases h with h | h <;> omega
      | none =>
        simp only [findYearFrom, hf] at h
        simp only [List.take_succ_cons, List.mem_cons] at ht
        rcases ht with rfl | ht
        · exact hf
        · refine ih (i + 1) c (by omega) ?_ t ht
          push_cast at h
          omega

theorem scanFrom_before (unicodeLower : Char → Char) (M : List (Nat × List GoString))
    (unknown : Nat) (order : Nat → { l : List (Nat × List GoString) // l.Perm M })
    (fields : List GoString) :
    ∀ (i c : Nat),
      ((scanFrom unicodeLower M unknown order i fields).2 = -1 ∨
        ((i + c : Nat) : Int) ≤ (scanFrom unicodeLower M unknown order i fields).2) →
      ∀ t ∈ fields.take c, ∀ e ∈ M, ToLower unicodeLower t ∉ e.2 := by
  induction fields with
  | nil => intro i c _ t ht; simp at ht
  | cons f rest ih =>
    intro i c h t ht
    cases c with
    | zero => simp at ht
    | succ c =>
      cases hf : rangeFind (order i).val (ToLower unicodeLower f) with
      | some y =>
        simp only [scanFrom, hf] at h
        exfalso
        rcases h with h | h <;> omega
      | none =>
        simp only [scanFrom, hf] at h
        simp only [List.take_succ_cons, List.mem_cons] at ht
        rcases ht with rfl | ht
        · intro e he
          exact (rangeFind_eq_none_iff _ _).1 hf e ((order i).property.mem_iff.2 he)
        · refine ih (i + 1) c ?_ t ht
          push_cast at h ⊢
          omega

section Outcome

variable (unicodeLower : Char → Char) (formatOrder : Nat → FormatOrder)
  (resolutionOrder : Nat → ResolutionOrder)

/-- Each of the three indices handed to `minPositive` is `-1` or a position of the token
sequence. -/
theorem scanner_indices (fields : List GoString) :
    ∀ z ∈ [(findYear fields).2, (findSource unicodeLower formatOrder fields).2,
        (findResolution unicodeLower resolutionOrder fields).2],
      z = -1 ∨ (0 ≤ z ∧ z < (fields.length : Int)) := by
  intro z hz
  have hy := findYearFrom_index fields 0
  have hs := scanFrom_index unicodeLower DigitalFormatMap UnknownDigitalFormat formatOrder
    fields 0
  have hr := scanFrom_index unicodeLower DigitalResolutionMap UnknownResolution
    resolutionOrder fields 0
  rw [← findSourceFrom_eq_scanFrom] at hs
  rw [← findResolutionFrom_eq_scanFrom] at hr
  simp only [List.mem_cons, List.mem_singleton, List.not_mem_nil, or_false] at hz
  simp only [findYear, findSource, findResolution] at hz
  push_cast at hs hr
  rcases hz with rfl | rfl | rfl <;> omega

/-- What a returned `MovieInfo` is, for a non-empty title. -/
theorem ParseHDCTitle_some_inv (title : GoString) (h : title ≠ []) (m : MovieInfo)
    (hm : ParseHDCTitle unicodeLower formatOrder resolutionOrder title = some m) :
    0 ≤ minPositive [(findYear (split title)).2,
        (findSource unicodeLower formatOrder (split title)).2,
        (findResolution unicodeLower resolutionOrder (split title)).2] ∧
    minPositive [(findYear (split title)).2,
        (findSource unicodeLower formatOrder (split title)).2,
        (findResolution unicodeLower resolutionOrder (split title)).2]
      ≤ ((split title).length : Int) ∧
    m = { Title := Join ((split title).take
            (minPositive [(findYear (split title)).2,
              (findSource unicodeLower formatOrder (split title)).2,
              (findResolution unicodeLower resolutionOrder (split title)).2]).toNat)
            " ".toList,
          Year := (findYear (split title)).1,
          Group := findGroup (split title),
          Source := (findSource unicodeLower formatOrder (split title)).1,
          Resolution := (findResolution unicodeLower resolutionOrder (split title)).1 } := by
  rw [ParseHDCTitle_of_ne unicodeLower formatOrder resolutionOrder title h] at hm
  by_cases hb : 0 ≤ minPositive [(findYear (split title)).2,
        (findSource unicodeLower formatOrder (split title)).2,
        (findResolution unicodeLower resolutionOrder (split title)).2] ∧
      minPositive [(findYear (split title)).2,
        (findSource unicodeLower formatOrder (split title)).2,
        (findResolution unicodeLower resolutionOrder (split title)).2]
      ≤ ((split title).length : Int)
  · rw [sliceTo_of_le _ _ hb.1 hb.2] at hm
    exact ⟨hb.1, hb.2, (Option.some.inj hm).symm⟩
  · simp only [sliceTo, if_neg hb] at hm
    exact Option.noConfusion hm

/-- The tokens kept for the title come before every index reported by a scanner. -/
theorem title_tokens_before (fields : List GoString) (t : GoString)
    (ht : t ∈ fields.take (minPositive [(findYear fields).2,
        (findSource unicodeLower formatOrder fields).2,
        (findResolution unicodeLower resolutionOrder fields).2]).toNat) :
    tryParseYear t = none ∧ (∀ e ∈ DigitalFormatMap, ToLower unicodeLower t ∉ e.2) ∧
      (∀ e ∈ DigitalResolutionMap, ToLower unicodeLower t ∉ e.2) := by
  have hidx := scanner_indices unicodeLower formatOrder resolutionOrder fields
  have hle := fun z hz h0 => (minPositive_le (findYear fields).2
    (findSource unicodeLower formatOrder fields).2
    (findResolution unicodeLower resolutionOrder fields).2 z hz h0)
  have h0 : 0 ≤ minPositive [(findYear fields).2,
      (findSource unicodeLower formatOrder fields).2,
      (findResolution unicodeLower resolutionOrder fields).2] := by
    rcases minPositive_three (findYear fields).2
      (findSource unicodeLower formatOrder fields).2
      (findResolution unicodeLower resolutionOrder fields).2 with ⟨h1, _⟩ | ⟨_, h2, _⟩
    · rw [h1]; decide
    · exact h2
  refine ⟨?_, ?_, ?_⟩
  · refine findYearFrom_before fields 0 _ (le_refl 0) ?_ t ht
    rcases hidx (findYear fields).2 (by simp) with h | h
    · exact Or.inl h
    · right
      have := (hle _ (by simp) h.1).2
      rw [Int.toNat_of_nonneg h0]
      simpa [findYear] using this
  · have := scanFrom_before unicodeLower DigitalFormatMap UnknownDigitalFormat formatOrder
      fields 0 (minPositive [(findYear fields).2,
        (findSource unicodeLower formatOrder fields).2,
        (findResolution unicodeLower resolutionOrder fields).2]).toNat
    rw [← findSourceFrom_eq_scanFrom] at this
    refine this ?_ t ht
    rcases hidx (findSource unicodeLower formatOrder fields).2 (by simp) with h | h
    · exact Or.inl h
    · right
      have := (hle _ (by simp) h.1).2
      simp only [Nat.zero_add]
      rw [Int.toNat_of_nonneg h0]
      exact this
  · have := scanFrom_before unicodeLower DigitalResolutionMap UnknownResolution
      resolutionOrder fields 0 (minPositive [(findYear fields).2,
        (findSource unicodeLower formatOrder fields).2,
        (findResolution unicodeLower resolutionOrder fields).2]).toNat
    rw [← findResolutionFrom_eq_scanFrom] at this
    refine this ?_ t ht
    rcases hidx (findResolution unicodeLower resolutionOrder fields).2 (by simp) with h | h
    · exact Or.inl h
    · right
      have := (hle _ (by simp) h.1).2
      simp only [Nat.zero_add]
      rw [Int.toNat_of_nonneg h0]
      exact this

end Outcome

/-- Claim C17. For a non-empty input with fewer than `2^31 - 1` tokens, `ParseHDCTitle` fails
exactly when `findYear`, `findSource` and `findResolution` all return index `-1`; the failure
is the slice expression `fields[:minIndex]` with `minIndex = math.MaxInt32`; and whenever
`ParseHDCTitle` returns, the cut index satisfies `0 ≤ minIndex < len(split(input))`. -/
theorem ParseHDCTitle_fails_iff (unicodeLower : Char → Char) (formatOrder : Nat → FormatOrder)
    (resolutionOrder : Nat → ResolutionOrder) (title : GoString) (hne : title ≠ [])
    (hlen : (split title).length < 2147483647) :
    (ParseHDCTitle unicodeLower formatOrder resolutionOrder title = none ↔
      ((findYear (split title)).2 = -1 ∧
        (findSource unicodeLower formatOrder (split title)).2 = -1 ∧
        (findResolution unicodeLower resolutionOrder (split title)).2 = -1)) ∧
    (ParseHDCTitle unicodeLower formatOrder resolutionOrder title = none →
      minPositive [(findYear (split title)).2,
        (findSource unicodeLower formatOrder (split title)).2,
        (findResolution unicodeLower resolutionOrder (split title)).2] = MaxInt32 ∧
      sliceTo (split title) MaxInt32 = none) ∧
    (∀ m, ParseHDCTitle unicodeLower formatOrder resolutionOrder title = some m →
      0 ≤ minPositive [(findYear (split title)).2,
        (findSource unicodeLower formatOrder (split title)).2,
        (findResolution unicodeLower resolutionOrder (split title)).2] ∧
      minPositive [(findYear (split title)).2,
        (findSource unicodeLower formatOrder (split title)).2,
        (findResolution unicodeLower resolutionOrder (split title)).2]
        < ((split title).length : Int)) := by
  have hidx := scanner_indices unicodeLower formatOrder resolutionOrder (split title)
  have hlen' : ((split title).length : Int) < MaxInt32 := by
    simp only [MaxInt32]
    exact_mod_cast hlen
  have hiff : ParseHDCTitle unicodeLower formatOrder resolutionOrder title = none ↔
      ((findYear (split title)).2 = -1 ∧
        (findSource unicodeLower formatOrder (split title)).2 = -1 ∧
        (findResolution unicodeLower resolutionOrder (split title)).2 = -1) := by
    constructor
    · intro hnone
      by_contra hnot
      have hex : ∃ z ∈ [(findYear (split title)).2,
          (findSource unicodeLower formatOrder (split title)).2,
          (findResolution unicodeLower resolutionOrder (split title)).2], 0 ≤ z := by
        by_contra hno
        apply hnot
        refine ⟨?_, ?_, ?_⟩
        · rcases hidx (findYear (split title)).2 (by simp) with h | h
          · exact h
          · exact absurd ⟨_, by simp, h.1⟩ hno
        · rcases hidx (findSource unicodeLower formatOrder (split title)).2 (by simp)
            with h | h
          · exact h
          · exact absurd ⟨_, by simp, h.1⟩ hno
        · rcases hidx (findResolution unicodeLower resolutionOrder (split title)).2 (by simp)
            with h | h
          · exact h
          · exact absurd ⟨_, by simp, h.1⟩ hno
      obtain ⟨z, hz, hz0⟩ := hex
      rw [ParseHDCTitle_some_of_match unicodeLower formatOrder resolutionOrder title hne z
        hz hz0] at hnone
      exact Option.noConfusion hnone
    · rintro ⟨hy, hs, hr⟩
      exact ParseHDCTitle_none_of_no_match unicodeLower formatOrder resolutionOrder title hne
        hy hs hr hlen'
  refine ⟨hiff, ?_, ?_⟩
  · intro hnone
    obtain ⟨hy, hs, hr⟩ := hiff.1 hnone
    exact ⟨minPositive_none _ _ _ hy hs hr, sliceTo_of_gt _ _ hlen'⟩
  · intro m hm
    obtain ⟨h0, _, _⟩ := ParseHDCTitle_some_inv unicodeLower formatOrder resolutionOrder
      title hne m hm
    refine ⟨h0, ?_⟩
    rcases minPositive_three (findYear (split title)).2
      (findSource unicodeLower formatOrder (split title)).2
      (findResolution unicodeLower resolutionOrder (split title)).2
      with ⟨h1, h2⟩ | ⟨h1, _, _, _⟩
    · exfalso
      have hall : (findYear (split title)).2 = -1 ∧
          (findSource unicodeLower formatOrder (split title)).2 = -1 ∧
          (findResolution unicodeLower resolutionOrder (split title)).2 = -1 := by
        refine ⟨?_, ?_, ?_⟩
        · rcases hidx (findYear (split title)).2 (by simp) with h | h
          · exact h
          · exact absurd ⟨h.1, by omega⟩ (h2 _ (by simp))
        · rcases hidx (findSource unicodeLower formatOrder (split title)).2 (by simp)
            with h | h
          · exact h
          · exact absurd ⟨h.1, by omega⟩ (h2 _ (by simp))
        · rcases hidx (findResolution unicodeLower resolutionOrder (split title)).2 (by simp)
            with h | h
          · exact h
          · exact absurd ⟨h.1, by omega⟩ (h2 _ (by simp))
      rw [hiff.2 hall] at hm
      exact Option.noConfusion hm
    · rcases hidx _ h1 with h | h
      · omega
      · exact h.2

theorem ParseHDCTitle_fails_iff_witness :
    (ParseHDCTitle id (fun _ => sourceFormatOrder) (fun _ => sourceResolutionOrder)
        "Hello World".toList = none ↔
      ((findYear (split "Hello World".toList)).2 = -1 ∧
        (findSource id (fun _ => sourceFormatOrder) (split "Hello World".toList)).2 = -1 ∧
        (findResolution id (fun _ => sourceResolutionOrder)
          (split "Hello World".toList)).2 = -1)) ∧
    ParseHDCTitle id (fun _ => sourceFormatOrder) (fun _ => sourceResolutionOrder)
        "Hello World".toList = none :=
  ⟨(ParseHDCTitle_fails_iff id (fun _ => sourceFormatOrder) (fun _ => sourceResolutionOrder)
      "Hello World".toList (by decide) (by decide)).1, by decide⟩

/-- Claim C18. For a non-empty input for which `ParseHDCTitle` returns, no token of the
returned `Title` is a recognizable field: no token of `split(Title)` qualifies as a year or
lowercases to a source alias or a resolution alias, so `findYear`, `findSource` and
`findResolution` all return index `-1` on `split(Title)`, whatever the order of the map
visits. -/
theorem title_tokens_unrecognized (unicodeLower : Char → Char)
    (formatOrder formatOrder2 : Nat → FormatOrder)
    (resolutionOrder resolutionOrder2 : Nat → ResolutionOrder) (title : GoString)
    (hne : title ≠ []) (m : MovieInfo)
    (hm : ParseHDCTitle unicodeLower formatOrder resolutionOrder title = some m) :
    (∀ t ∈ split m.Title, tryParseYear t = none ∧
      (∀ e ∈ DigitalFormatMap, ToLower unicodeLower t ∉ e.2) ∧
      (∀ e ∈ DigitalResolutionMap, ToLower unicodeLower t ∉ e.2)) ∧
    findYear (split m.Title) = (-1, -1) ∧
    findSource unicodeLower formatOrder2 (split m.Title) = (UnknownDigitalFormat, -1) ∧
    findResolution unicodeLower resolutionOrder2 (split m.Title) = (UnknownResolution, -1) := by
  obtain ⟨_, _, hmeq⟩ := ParseHDCTitle_some_inv unicodeLower formatOrder resolutionOrder
    title hne m hm
  have htok : ∀ t ∈ (split title).take (minPositive [(findYear (split title)).2,
      (findSource unicodeLower formatOrder (split title)).2,
      (findResolution unicodeLower resolutionOrder (split title)).2]).toNat,
      t ≠ [] ∧ ∀ c ∈ t, ¬ isDelimiter c :=
    fun t ht => split_mem title t (List.mem_of_mem_take ht)
  have hsplit : split m.Title = (split title).take (minPositive [(findYear (split title)).2,
      (findSource unicodeLower formatOrder (split title)).2,
      (findResolution unicodeLower resolutionOrder (split title)).2]).toNat := by
    rw [hmeq]
    exact (Join_tokens _ htok).1
  have hall : ∀ t ∈ split m.Title, tryParseYear t = none ∧
      (∀ e ∈ DigitalFormatMap, ToLower unicodeLower t ∉ e.2) ∧
      (∀ e ∈ DigitalResolutionMap, ToLower unicodeLower t ∉ e.2) := by
    intro t ht
    rw [hsplit] at ht
    exact title_tokens_before unicodeLower formatOrder resolutionOrder (split title) t ht
  refine ⟨hall, (findYear_none_iff _).2 (fun t ht => (hall t ht).1), ?_, ?_⟩
  · exact findSource_no_alias unicodeLower formatOrder2 _ (fun t ht => (hall t ht).2.1)
  · exact findResolution_no_alias unicodeLower resolutionOrder2 _ (fun t ht => (hall t ht).2.2)

theorem title_tokens_unrecognized_witness :
    findYear (split "Some Movie Title".toList) = (-1, -1) ∧
    findSource id (fun _ => sourceFormatOrder) (split "Some Movie Title".toList)
      = (UnknownDigitalFormat, -1) ∧
    findResolution id (fun _ => sourceResolutionOrder) (split "Some Movie Title".toList)
      = (UnknownResolution, -1) :=
  (title_tokens_unrecognized id (fun _ => sourceFormatOrder) (fun _ => sourceFormatOrder)
    (fun _ => sourceResolutionOrder) (fun _ => sourceResolutionOrder)
    "Some.Movie.Title.2015.1080p.BluRay.x264-GROUP".toList (by decide)
    { Title := "Some Movie Title".toList, Year := 2015, Group := "GROUP".toList,
      Source := Blueray, Resolution := FHD } (by decide)).2

theorem fieldsFuncAux_map (f : Char → Bool) (g : Char → Char) (hf : ∀ c, f (g c) = f c)
    (hg : ∀ c, f c = false → g c = c) (s : GoString) :
    ∀ cur, fieldsFuncAux f cur (s.map g) = fieldsFuncAux f cur s := by
  induction s with
  | nil => intro cur; rfl
  | cons r rs ih =>
    intro cur
    by_cases hr : f r = true
    · cases cur <;> simp [fieldsFuncAux, hf, hr, ih]
    · have hr' : f r = false := by simpa using hr
      cases cur <;> simp [fieldsFuncAux, hf, hr', hg r hr', ih]

theorem split_dotsToSpaces (s : GoString) : split (dotsToSpaces s) = split s := by
  unfold split FieldsFunc dotsToSpaces
  apply fieldsFuncAux_map
  · intro c
    by_cases h : c = '.'
    · subst h; decide
    · simp [h]
  · intro c hc
    have : ¬ c = '.' := by
      rintro rfl
      exact absurd hc (by decide)
    simp [this]

theorem split_spacesToDots (s : GoString) : split (spacesToDots s) = split s := by
  unfold split FieldsFunc spacesToDots
  apply fieldsFuncAux_map
  · intro c
    by_cases h : c = ' '
    · subst h; decide
    · simp [h]
  · intro c hc
    have : ¬ c = ' ' := by
      rintro rfl
      exact absurd hc (by decide)
    simp [this]

/-- The outcome of `ParseHDCTitle` is a function of whether the title is empty and of its
tokenization. -/
theorem ParseHDCTitle_congr (unicodeLower : Char → Char)
    (formatOrder1 formatOrder2 : Nat → FormatOrder)
    (resolutionOrder1 resolutionOrder2 : Nat → ResolutionOrder) (s1 s2 : GoString)
    (hnil : s1 = [] ↔ s2 = []) (hsplit : split s1 = split s2) :
    ParseHDCTitle unicodeLower formatOrder1 resolutionOrder1 s1
      = ParseHDCTitle unicodeLower formatOrder2 resolutionOrder2 s2 := by
  rw [ParseHDCTitle_order unicodeLower formatOrder1 formatOrder2 resolutionOrder1
    resolutionOrder2]
  by_cases h : s1 = []
  · rw [h, hnil.1 h]
  · rw [ParseHDCTitle_of_ne _ _ _ s1 h, ParseHDCTitle_of_ne _ _ _ s2 (fun h2 => h (hnil.2 h2)),
      hsplit]

/-- Claim C19. The two delimiters are interchangeable: when every `'.'` of the input is
replaced by `' '`, or every `' '` by `'.'`, `ParseHDCTitle` has the same outcome, the same
`MovieInfo` or a failure in both cases, whatever the order of the map visits in the two
calls. -/
theorem delimiters_interchangeable (unicodeLower : Char → Char)
    (formatOrder formatOrder2 : Nat → FormatOrder)
    (resolutionOrder resolutionOrder2 : Nat → ResolutionOrder) (s : GoString) :
    ParseHDCTitle unicodeLower formatOrder2 resolutionOrder2 (dotsToSpaces s)
      = ParseHDCTitle unicodeLower formatOrder resolutionOrder s ∧
    ParseHDCTitle unicodeLower formatOrder2 resolutionOrder2 (spacesToDots s)
      = ParseHDCTitle unicodeLower formatOrder resolutionOrder s := by
  constructor
  · apply ParseHDCTitle_congr
    · simp [dotsToSpaces]
    · exact split_dotsToSpaces s
  · apply ParseHDCTitle_congr
    · simp [spacesToDots]
    · exact split_spacesToDots s

/-- Claim C20. For every input for which `ParseHDCTitle` returns, the `Title` is in normal
form: it contains no `'.'`, does not begin or end with `' '`, and has no two consecutive
spaces; `split(Title)` is the list of the tokens of the input before the cut index; and
joining `split(Title)` with single spaces gives `Title` back. -/
theorem title_normal_form (unicodeLower : Char → Char) (formatOrder : Nat → FormatOrder)
    (resolutionOrder : Nat → ResolutionOrder) (title : GoString) (m : MovieInfo)
    (hm : ParseHDCTitle unicodeLower formatOrder resolutionOrder title = some m) :
    '.' ∉ m.Title ∧ m.Title.head? ≠ some ' ' ∧ m.Title.getLast? ≠ some ' ' ∧
    List.Chain' (fun a b => ¬ (a = ' ' ∧ b = ' ')) m.Title ∧
    (∃ c : Nat, c ≤ (split title).length ∧ split m.Title = (split title).take c ∧
      (title ≠ [] → (c : Int) = minPositive [(findYear (split title)).2,
        (findSource unicodeLower formatOrder (split title)).2,
        (findResolution unicodeLower resolutionOrder (split title)).2])) ∧
    Join (split m.Title) " ".toList = m.Title := by
  by_cases hne : title = []
  · subst hne
    have hz : m = MovieInfo.zero := (Option.some.inj hm).symm
    subst hz
    refine ⟨by decide, by decide, by decide, by decide, ⟨0, by decide, by decide, ?_⟩,
      by decide⟩
    intro h
    exact absurd rfl h
  · obtain ⟨h0, hle, hmeq⟩ := ParseHDCTitle_some_inv unicodeLower formatOrder resolutionOrder
      title hne m hm
    have htok : ∀ t ∈ (split title).take (minPositive [(findYear (split title)).2,
        (findSource unicodeLower formatOrder (split title)).2,
        (findResolution unicodeLower resolutionOrder (split title)).2]).toNat,
        t ≠ [] ∧ ∀ c ∈ t, ¬ isDelimiter c :=
      fun t ht => split_mem title t (List.mem_of_mem_take ht)
    obtain ⟨j1, j2, j3, j4, j5⟩ := Join_tokens _ htok
    have hT : m.Title = Join ((split title).take (minPositive [(findYear (split title)).2,
        (findSource unicodeLower formatOrder (split title)).2,
        (findResolution unicodeLower resolutionOrder (split title)).2]).toNat)
        " ".toList := by
      rw [hmeq]
    rw [hT]
    refine ⟨j2, j3, j4, j5, ⟨_, ?_, j1, fun _ => Int.toNat_of_nonneg h0⟩, ?_⟩
    · omega
    · rw [j1]

theorem title_normal_form_witness :
    '.' ∉ "Some Movie Title".toList ∧ "Some Movie Title".toList.head? ≠ some ' ' ∧
    "Some Movie Title".toList.getLast? ≠ some ' ' ∧
    List.Chain' (fun a b => ¬ (a = ' ' ∧ b = ' ')) "Some Movie Title".toList ∧
    split "Some Movie Title".toList = ["Some".toList, "Movie".toList, "Title".toList] ∧
    Join (split "Some Movie Title".toList) " ".toList = "Some Movie Title".toList :=
  have h := title_normal_form id (fun _ => sourceFormatOrder) (fun _ => sourceResolutionOrder)
    "Some.Movie.Title.2015.1080p.BluRay.x264-GROUP".toList
    { Title := "Some Movie Title".toList, Year := 2015, Group := "GROUP".toList,
      Source := Blueray, Resolution := FHD } (by decide)
  ⟨h.1, h.2.1, h.2.2.1, h.2.2.2.1, by decide, h.2.2.2.2.2⟩

end pt
